import Mathlib

/-!
# Verification of the `cacheing` library's eviction engines

Shallow embedding of `src/cacheing/__init__.py` and `src/cacheing/utils.py`.

Conventions shared by every model in this file:

* Python `dict`s are modelled as insertion-ordered association lists
  `List (Nat × Nat)` with unique keys: `dict[k] = v` replaces the value in
  place when `k` is present and appends otherwise; `del dict[k]` removes the
  entry; `dict.popitem()` removes the *last* entry; `next(iter(dict))` is the
  *first* entry.
* `collections.OrderedDict` recency ledgers (`_lru`) are modelled as
  association lists stored in *reverse* of the `OrderedDict`'s iteration
  order: the head of the Lean list is the `OrderedDict`'s last element.
  The caches only ever touch the `_lru` ledger through
  `move_to_end(key, last=False)` (move to the `OrderedDict` front = the end
  of the Lean list: the most-recently-used end) and `popitem()` (remove the
  `OrderedDict`'s last element = the head of the Lean list: the
  least-recently-used end), so this flip makes eviction structural
  recursion while preserving the ledger's contents and order exactly.
* A Python exception that escapes a method is modelled as a `some err` /
  `Except.error err` result **paired with the state exactly as the method
  leaves it**, since a raising method may already have mutated the object.
* The optional user eviction callback is modelled by a `cbLog` field
  recording, in order, every `(key, value)` pair the cache would pass to a
  configured callback.
* Python truthiness of a stored value (`if self._lru[_key]:`) is modelled by
  `v ≠ 0`: value `0` is falsy, every other `Nat` is truthy.
-/

/-- Errors raised by the cache methods (Python `KeyError` / `TypeError`
distinguished by the raising site's message). -/
inductive CErr : Type
  /-- `KeyError(key)` on an absent key. -/
  | keyNotFound : CErr
  /-- `KeyError("cache is empty")` / `"cannot pop from empty cache"`. -/
  | emptyCache : CErr
  /-- `KeyError("no candidate keys")` (volatile caches). -/
  | noCandidates : CErr
  /-- `TypeError`, e.g. from `in` on an object defining neither
  `__contains__` nor `__iter__` nor `__getitem__`. -/
  | typeError : CErr
  deriving DecidableEq, Repr

deriving instance DecidableEq for Except

/-- Keys of an association list, in order. -/
def alKeys (m : List (Nat × Nat)) : List Nat := m.map Prod.fst

/-- `dict[k]` lookup: value of the first (only) entry with key `k`. -/
def alGet? (m : List (Nat × Nat)) (k : Nat) : Option Nat :=
  (m.find? (fun p => p.1 = k)).map Prod.snd

/-- `dict[k] = v`: replace in place when present, append otherwise. -/
def alSet : List (Nat × Nat) → Nat → Nat → List (Nat × Nat)
  | [], k, v => [(k, v)]
  | p :: t, k, v => if p.1 = k then (k, v) :: t else p :: alSet t k v

/-- `del dict[k]`: drop the first entry with key `k` (keys are unique). -/
def alErase : List (Nat × Nat) → Nat → List (Nat × Nat)
  | [], _ => []
  | p :: t, k => if p.1 = k then t else p :: alErase t k

namespace RCache

/-- State of `RCache` (the base cache engine): the name-mangled
`__cache` dict, the `__size` counter, the fixed `__capacity`, and the log of
eviction-callback invocations. -/
structure RS : Type where
  cache : List (Nat × Nat)
  size : Nat
  cap : Nat
  cbLog : List (Nat × Nat)
  deriving DecidableEq, Repr

/-- `RCache(capacity)`: fresh empty cache. -/
def fresh (cap : Nat) : RS := ⟨[], 0, cap, []⟩

/-- `RCache._evict`: pop `next(iter(self))` (the oldest entry of the dict),
decrement `__size`, invoke the callback with the victim. -/
def evict (s : RS) : RS × Option CErr :=
  match s.cache with
  | [] => (s, some .emptyCache)
  | (k, v) :: rest =>
    ({ s with cache := rest, size := s.size - 1, cbLog := s.cbLog ++ [(k, v)] }, none)

/-- The `while self.__size >= self.__capacity: self._evict()` admission loop
of `RCache.__setitem__`, written as structural recursion on the dict. -/
def evictFrom (cache : List (Nat × Nat)) (size cap : Nat) (cbLog : List (Nat × Nat)) :
    (List (Nat × Nat) × Nat × List (Nat × Nat)) × Option CErr :=
  if size < cap then ((cache, size, cbLog), none)
  else
    match cache with
    | [] => (([], size, cbLog), some .emptyCache)
    | (k, v) :: rest => evictFrom rest (size - 1) cap (cbLog ++ [(k, v)])

/-- The admission loop, packaged on states. -/
def evictLoop (s : RS) : RS × Option CErr :=
  match evictFrom s.cache s.size s.cap s.cbLog with
  | ((c, n, log), e) => (⟨c, n, s.cap, log⟩, e)

/-- `RCache.__setitem__`: a new key first runs the admission loop, then is
appended with `__size` incremented; an existing key is overwritten in place. -/
def setitem (s : RS) (k v : Nat) : RS × Option CErr :=
  if k ∈ alKeys s.cache then
    ({ s with cache := alSet s.cache k v }, none)
  else
    match evictLoop s with
    | (s', some e) => (s', some e)
    | (s', none) =>
      ({ s' with cache := s'.cache ++ [(k, v)], size := s'.size + 1 }, none)

/-- `RCache.__getitem__` / `RCache.get`: pure lookup (`none` = `KeyError`,
suppressed into the default by `get`). -/
def getitem? (s : RS) (k : Nat) : Option Nat := alGet? s.cache k

/-- `RCache.__delitem__`: `del self.__cache[_key]` then `__size -= 1`. -/
def delitem (s : RS) (k : Nat) : RS × Option CErr :=
  if k ∈ alKeys s.cache then
    ({ s with cache := alErase s.cache k, size := s.size - 1 }, none)
  else (s, some .keyNotFound)

/-- `RCache.pop`: look the value up, delete, return it; on `KeyError` return
the default if one was supplied (`none` models the no-default sentinel). -/
def pop (s : RS) (k : Nat) (dflt : Option Nat) : RS × Except CErr Nat :=
  match getitem? s k with
  | some v => ((delitem s k).1, .ok v)
  | none =>
    match dflt with
    | some d => (s, .ok d)
    | none => (s, .error .keyNotFound)

/-- `RCache.popitem`: `self.__cache.popitem()` (the most recently inserted
entry), `__size -= 1`; `KeyError("cache is empty")` on an empty dict. -/
def popitem (s : RS) : RS × Except CErr (Nat × Nat) :=
  match s.cache.getLast? with
  | none => (s, .error .emptyCache)
  | some (k, v) =>
    ({ s with cache := s.cache.dropLast, size := s.size - 1 }, .ok (k, v))

/-- `RCache.__contains__`. -/
def containsKey (s : RS) (k : Nat) : Bool := decide (k ∈ alKeys s.cache)

/-- `RCache.__len__`: `len(self.__cache)`. -/
def lenCache (s : RS) : Nat := s.cache.length

/-- One public operation of the base cache contract. -/
inductive Op : Type
  | set (k v : Nat)
  | get (k : Nat)
  | del (k : Nat)
  | pop (k : Nat) (dflt : Option Nat)
  | popitem
  | contains (k : Nat)
  | len
  deriving DecidableEq, Repr

/-- State transition of a single public operation (read-only operations
leave the state unchanged; a raising operation leaves the state as the
method left it). -/
def step (s : RS) : Op → RS
  | .set k v => (setitem s k v).1
  | .get _ => s
  | .del k => (delitem s k).1
  | .pop k d => (pop s k d).1
  | .popitem => (popitem s).1
  | .contains _ => s
  | .len => s

/-- Run a finite sequence of public operations. -/
def run (s : RS) (ops : List Op) : RS := ops.foldl step s

/-- Insert the keys of `ks` in order, key `k` carrying value `val k`. -/
def setAll (s : RS) (ks : List Nat) (val : Nat → Nat) : RS :=
  ks.foldl (fun t k => (setitem t k (val k)).1) s

/-- Representation consistency of an `RCache` state: `__size` agrees with
the dict, dict keys are unique (as Python guarantees), the cache is within
capacity, and the capacity is positive (a non-positive capacity is a
configuration error per the spec). -/
def Consistent (s : RS) : Prop :=
  s.size = s.cache.length ∧ (alKeys s.cache).Nodup ∧ s.cache.length ≤ s.cap ∧ 1 ≤ s.cap

instance (s : RS) : Decidable (Consistent s) := by unfold Consistent; infer_instance

end RCache

/-- `OrderedDict.move_to_end(key, last=False)` on a reversed ledger: move an
existing key (with its stored value) to the most-recently-used end (the end
of the Lean list).  Every call site in the source reaches this only with a
key present in the ordered dict, so the absent case (Python `KeyError`) is
modelled as a no-op and is unreachable where used. -/
def odMoveMRU (m : List (Nat × Nat)) (k : Nat) : List (Nat × Nat) :=
  match alGet? m k with
  | some v => alErase m k ++ [(k, v)]
  | none => m

namespace LRUCache

/-- State of `LRUCache`: the inherited `RCache` fields plus the `_lru`
`OrderedDict`, stored least-recently-used-first (see the file header). -/
structure LS : Type where
  cache : List (Nat × Nat)
  size : Nat
  cap : Nat
  lru : List (Nat × Nat)
  cbLog : List (Nat × Nat)
  deriving DecidableEq, Repr

/-- `LRUCache(capacity)`: fresh empty cache. -/
def fresh (cap : Nat) : LS := ⟨[], 0, cap, [], []⟩

/-- `LRUCache.popitem`: `self._lru.popitem()` (the least-recently-used end,
the head of the reversed ledger), then `RCache.__delitem__` on the popped
key; returns the popped pair.  The `KeyError` of `RCache.__delitem__` (only
reachable when the ledger holds a key the map does not) escapes after `_lru`
has already been popped. -/
def popitem (s : LS) : LS × Except CErr (Nat × Nat) :=
  match s.lru with
  | [] => (s, .error .emptyCache)
  | (k, v) :: rest =>
    if k ∈ alKeys s.cache then
      ({ s with lru := rest, cache := alErase s.cache k, size := s.size - 1 }, .ok (k, v))
    else ({ s with lru := rest }, .error .keyNotFound)

/-- `LRUCache._evict`: `popitem` then invoke the callback on the victim; any
`KeyError` from `popitem` is re-raised as `"cannot evict from empty cache"`. -/
def evict (s : LS) : LS × Option CErr :=
  match popitem s with
  | (s', .ok (k, v)) => ({ s' with cbLog := s'.cbLog ++ [(k, v)] }, none)
  | (s', .error _) => (s', some .emptyCache)

/-- The inherited `while self.__size >= self.__capacity: self._evict()`
admission loop, dispatching to `LRUCache._evict` (whose body is inlined so
that the recursion is structural on the shrinking `_lru`). -/
def evictLoop (s : LS) : LS × Option CErr :=
  if s.size < s.cap then (s, none)
  else
    match h : s.lru with
    | [] => (s, some .emptyCache)
    | (k, v) :: rest =>
      if k ∈ alKeys s.cache then
        evictLoop { s with lru := rest, cache := alErase s.cache k, size := s.size - 1,
                           cbLog := s.cbLog ++ [(k, v)] }
      else ({ s with lru := rest }, some .emptyCache)
termination_by s.lru.length
decreasing_by simp [h]

/-- `LRUCache.__setitem__`: the inherited `RCache.__setitem__` (with the LRU
admission loop), then `self._lru[_key] = _value` followed by
`move_to_end(_key, last=False)`. -/
def setitem (s : LS) (k v : Nat) : LS × Option CErr :=
  if k ∈ alKeys s.cache then
    let s1 : LS := { s with cache := alSet s.cache k v }
    ({ s1 with lru := odMoveMRU (alSet s1.lru k v) k }, none)
  else
    match evictLoop s with
    | (s', some e) => (s', some e)
    | (s', none) =>
      let s1 : LS := { s' with cache := s'.cache ++ [(k, v)], size := s'.size + 1 }
      ({ s1 with lru := odMoveMRU (alSet s1.lru k v) k }, none)

/-- `LRUCache.__getitem__`: on a hit, move the key to the most-recently-used
end of `_lru` and return the value unchanged; `KeyError` on a miss. -/
def getitem (s : LS) (k : Nat) : LS × Except CErr Nat :=
  match alGet? s.cache k with
  | none => (s, .error .keyNotFound)
  | some v => ({ s with lru := odMoveMRU s.lru k }, .ok v)

/-- `LRUCache.__delitem__`: `RCache.__delitem__` then `del self._lru[_key]`. -/
def delitem (s : LS) (k : Nat) : LS × Option CErr :=
  if k ∈ alKeys s.cache then
    let s1 : LS := { s with cache := alErase s.cache k, size := s.size - 1 }
    if k ∈ alKeys s1.lru then ({ s1 with lru := alErase s1.lru k }, none)
    else (s1, some .keyNotFound)
  else (s, some .keyNotFound)

/-- Insert the keys of `ks` in order, key `k` carrying value `val k`. -/
def setAll (s : LS) (ks : List Nat) (val : Nat → Nat) : LS :=
  ks.foldl (fun t k => (setitem t k (val k)).1) s

end LRUCache

namespace VolatileLRUCache

/-- State of `VolatileLRUCache`: the `VolatileCache` fields (`__cache`,
`__size`, `__capacity`, `_expires_map`) plus the `_lru` `OrderedDict`
(stored least-recently-used-first, see the file header) and the callback
log.  `_lru` and `_expires_map` hold only keys whose `expires` flag was
true when written (plus any stale entries the source fails to clean up). -/
structure VS : Type where
  cache : List (Nat × Nat)
  size : Nat
  cap : Nat
  expires : List (Nat × Nat)
  lru : List (Nat × Nat)
  cbLog : List (Nat × Nat)
  deriving DecidableEq, Repr

/-- `VolatileLRUCache(capacity)`: fresh empty cache. -/
def fresh (cap : Nat) : VS := ⟨[], 0, cap, [], [], []⟩

/-- `VolatileLRUCache.popitem`: `self._lru.popitem()` (`KeyError("no
candidate keys")` when `_lru` is empty), then `VolatileCache.__delitem__`
on the popped key (whose own `KeyError`, reachable only when `_lru` holds a
key the map does not, escapes after `_lru` has been popped). -/
def popitem (s : VS) : VS × Except CErr (Nat × Nat) :=
  match s.lru with
  | [] => (s, .error .noCandidates)
  | (k, v) :: rest =>
    if k ∈ alKeys s.cache then
      ({ s with lru := rest, cache := alErase s.cache k,
                expires := alErase s.expires k, size := s.size - 1 }, .ok (k, v))
    else ({ s with lru := rest }, .error .keyNotFound)

/-- The `while self.__size >= self.__capacity and self._expires_map:
self._evict()` admission loop of `VolatileCache.__setitem__`, dispatching to
`VolatileLRUCache._evict` (= `popitem` + callback, any `KeyError` re-raised
as `"cannot evict from empty cache"`), with `_evict`'s body inlined so the
recursion is structural on the shrinking `_lru`. -/
def evictLoop (s : VS) : VS × Option CErr :=
  if s.cap ≤ s.size ∧ s.expires ≠ [] then
    match h : s.lru with
    | [] => (s, some .emptyCache)
    | (k, v) :: rest =>
      if k ∈ alKeys s.cache then
        evictLoop { s with lru := rest, cache := alErase s.cache k,
                           expires := alErase s.expires k, size := s.size - 1,
                           cbLog := s.cbLog ++ [(k, v)] }
      else ({ s with lru := rest }, some .emptyCache)
  else (s, none)
termination_by s.lru.length
decreasing_by simp [h]

/-- `VolatileLRUCache.__setitem__` on `(key, expires)` with value `v`:
`VolatileCache.__setitem__` (admission loop for a new key, then insert if
below capacity — otherwise the write is discarded; overwrite in place for an
existing key; `_expires_map` is updated only when `expires` is true), then —
when `expires` is true — `self._lru[_key] = _value` and
`move_to_end(_key, last=False)`, run even when the write was discarded. -/
def setitem (s : VS) (k : Nat) (expFlag : Bool) (v : Nat) : VS × Option CErr :=
  let base : VS × Option CErr :=
    if k ∈ alKeys s.cache then
      ({ s with cache := alSet s.cache k v,
                expires := if expFlag then alSet s.expires k v else s.expires }, none)
    else
      match evictLoop s with
      | (s', some e) => (s', some e)
      | (s', none) =>
        if s'.size < s'.cap then
          ({ s' with cache := s'.cache ++ [(k, v)],
                     expires := if expFlag then alSet s'.expires k v else s'.expires,
                     size := s'.size + 1 }, none)
        else (s', none)
  match base with
  | (s1, some e) => (s1, some e)
  | (s1, none) =>
    if expFlag then ({ s1 with lru := odMoveMRU (alSet s1.lru k v) k }, none)
    else (s1, none)

/-- `VolatileLRUCache.__getitem__`: on a hit, `move_to_end(_key, last=False)`
when `self._expires_map.get(_key)` is truthy (key present with value ≠ 0);
value returned unchanged; `KeyError` on a miss. -/
def getitem (s : VS) (k : Nat) : VS × Except CErr Nat :=
  match alGet? s.cache k with
  | none => (s, .error .keyNotFound)
  | some v =>
    match alGet? s.expires k with
    | some w => (if w ≠ 0 then ({ s with lru := odMoveMRU s.lru k }, .ok v) else (s, .ok v))
    | none => (s, .ok v)

/-- `VolatileLRUCache.__delitem__`: `VolatileCache.__delitem__` (`KeyError`
on an absent key; otherwise remove from `__cache` and `_expires_map` and
decrement `__size`), then `if self._lru[_key]: del self._lru[_key]` — a
truthiness test: a key absent from `_lru` raises `KeyError` *after* the map
was mutated, and a key whose `_lru` value is falsy (0) is left in `_lru`. -/
def delitem (s : VS) (k : Nat) : VS × Option CErr :=
  if k ∈ alKeys s.cache then
    let s1 : VS := { s with cache := alErase s.cache k,
                            expires := alErase s.expires k, size := s.size - 1 }
    match alGet? s1.lru k with
    | none => (s1, some .keyNotFound)
    | some w => (if w ≠ 0 then { s1 with lru := alErase s1.lru k } else s1, none)
  else (s, some .keyNotFound)

/-- `VolatileCache.pop` (inherited): `self[_key]` then `del self[_key]`,
both dynamically dispatched to the `VolatileLRUCache` overrides; a
`KeyError` from either is converted into the default when one was supplied
and re-raised otherwise. -/
def pop (s : VS) (k : Nat) (dflt : Option Nat) : VS × Except CErr Nat :=
  match getitem s k with
  | (s1, .error _) =>
    (match dflt with
     | some d => (s1, .ok d)
     | none => (s1, .error .keyNotFound))
  | (s1, .ok v) =>
    match delitem s1 k with
    | (s2, none) => (s2, .ok v)
    | (s2, some _) =>
      (match dflt with
       | some d => (s2, .ok d)
       | none => (s2, .error .keyNotFound))

/-- `VolatileCache.__contains__`. -/
def containsKey (s : VS) (k : Nat) : Bool := decide (k ∈ alKeys s.cache)

/-- `VolatileCache.__len__`: `len(self.__cache)`. -/
def lenCache (s : VS) : Nat := s.cache.length

/-- One public operation of the volatile LRU cache. -/
inductive Op : Type
  | set (k : Nat) (expFlag : Bool) (v : Nat)
  | get (k : Nat)
  | del (k : Nat)
  | pop (k : Nat) (dflt : Option Nat)
  | popitem
  | contains (k : Nat)
  | len
  deriving DecidableEq, Repr

/-- State transition of a single public operation. -/
def step (s : VS) : Op → VS
  | .set k e v => (setitem s k e v).1
  | .get k => (getitem s k).1
  | .del k => (delitem s k).1
  | .pop k d => (pop s k d).1
  | .popitem => (popitem s).1
  | .contains _ => s
  | .len => s

/-- Run a finite sequence of public operations. -/
def run (s : VS) (ops : List Op) : VS := ops.foldl step s

/-- Insert the keys of `ks` in order with `expires = true`, key `k`
carrying value `val k`. -/
def setAllExpiring (s : VS) (ks : List Nat) (val : Nat → Nat) : VS :=
  ks.foldl (fun t k => (setitem t k true (val k)).1) s

/-- Modelled from the spec: the spec's `set(key, value, persists)` interface
for volatile caches.  The spec's `persists: bool` marks a key persistent
(never evicted/expired), which is the negation of the source's `expires`
flag (`expires = True` marks a key volatile), so the spec-level call maps to
`cache[(key, not persists)] = value`. -/
def setPersists (s : VS) (k : Nat) (persists : Bool) (v : Nat) : VS × Option CErr :=
  setitem s k (!persists) v

/-- Representation consistency of a `VolatileLRUCache` state: `__size`
agrees with the dict, dict keys are unique, the cache is within capacity,
and the capacity is positive. -/
def Consistent (s : VS) : Prop :=
  s.size = s.cache.length ∧ (alKeys s.cache).Nodup ∧ s.cache.length ≤ s.cap ∧ 1 ≤ s.cap

instance (s : VS) : Decidable (Consistent s) := by unfold Consistent; infer_instance

end VolatileLRUCache

namespace LFULinkedList

/-- A frequency bucket of `LFULinkedList`: an `LFUNode`'s `frequency` and
its `items` `OrderedDict`'s keys in insertion order. -/
abbrev Bucket : Type := Nat × List Nat

/-- The chain of buckets reachable from the sentinel head (`frequency` 0,
whose `items` dict is never written): `head.next`, `head.next.next`, ….
The `node_cache` dict maps exactly the keys stored in some bucket to their
bucket, so it is represented by bucket membership. -/
abbrev Chain : Type := List Bucket

/-- All keys held in the chain, in chain-then-bucket order; these are
exactly the keys of `node_cache`. -/
def chainKeys (c : Chain) : List Nat := (c.map Prod.snd).flatten

/-- `LFULinkedList.insert`: create the frequency-1 bucket after the head if
`head.next` is missing, then add `key` at the end of `head.next`'s items
(call sites only pass keys not already in `node_cache`). -/
def insert (c : Chain) (k : Nat) : Chain :=
  match c with
  | [] => [(1, [k])]
  | (f, items) :: rest => (f, items ++ [k]) :: rest

/-- `LFULinkedList.increment`: remove `key` from its bucket (the bucket
`node_cache` maps it to — under the chain's invariant, the first bucket
containing it); if the next bucket has frequency `f + 1`, append `key` to
its items, otherwise splice in a new bucket of frequency `f + 1` holding
only `key`.  The emptied bucket is *not* unlinked.  A key not in the chain
(never passed by any call site) leaves the chain unchanged. -/
def increment : Chain → Nat → Chain
  | [], _ => []
  | (f, items) :: rest, k =>
    if k ∈ items then
      match rest with
      | (g, jtems) :: rest' =>
        if g = f + 1 then (f, items.erase k) :: (g, jtems ++ [k]) :: rest'
        else (f, items.erase k) :: (f + 1, [k]) :: (g, jtems) :: rest'
      | [] => [(f, items.erase k), (f + 1, [k])]
    else (f, items) :: increment rest k

/-- `LFULinkedList.delete`: remove `key` from its bucket and from
`node_cache`; the bucket is *not* unlinked when it empties. -/
def delete : Chain → Nat → Chain
  | [], _ => []
  | (f, items) :: rest, k =>
    if k ∈ items then (f, items.erase k) :: rest
    else (f, items) :: delete rest k

/-- `LFULinkedList.popleft`: walk the chain from `head.next`, skipping empty
buckets; pop the first key (`items.popitem(False)`, FIFO) of the first
non-empty bucket, returning the key and the resulting chain; `none` models
`KeyError("cannot pop from empty cache.")`. -/
def popleft? : Chain → Option (Nat × Chain)
  | [] => none
  | (f, items) :: rest =>
    match items with
    | [] =>
      match popleft? rest with
      | none => none
      | some (k, rest') => some (k, (f, []) :: rest')
    | k :: items' => some (k, (f, items') :: rest)

/-- One mutation of the frequency chain, as driven by the call sites in
`LFUCache` / `VolatileLFUCache`: `insert` is only called on keys outside
`node_cache`, `increment` and `delete` only on keys inside it, and
`popleft` (when it succeeds) may run on any chain. -/
inductive Reach : Chain → Prop
  | nil : Reach []
  | insert {c k} : Reach c → k ∉ chainKeys c → Reach (insert c k)
  | increment {c k} : Reach c → k ∈ chainKeys c → Reach (increment c k)
  | delete {c k} : Reach c → k ∈ chainKeys c → Reach (delete c k)
  | popleft {c k c'} : Reach c → popleft? c = some (k, c') → Reach c'

end LFULinkedList

namespace LFUCache

/-- State of `LFUCache`: the inherited `RCache` fields plus the
`LFULinkedList` frequency chain and the callback log. -/
structure FS : Type where
  cache : List (Nat × Nat)
  size : Nat
  cap : Nat
  chain : LFULinkedList.Chain
  cbLog : List (Nat × Nat)
  deriving DecidableEq, Repr

/-- `LFUCache(capacity)`: fresh empty cache. -/
def fresh (cap : Nat) : FS := ⟨[], 0, cap, [], []⟩

/-- `LFUCache.popitem`: `self.__lfu.popleft()` (`KeyError` when the chain
holds no key), then `RCache.__getitem__` and `RCache.__delitem__` on the
popped key; returns the popped pair. -/
def popitem (s : FS) : FS × Except CErr (Nat × Nat) :=
  match LFULinkedList.popleft? s.chain with
  | none => (s, .error .emptyCache)
  | some (k, chain') =>
    match alGet? s.cache k with
    | none => ({ s with chain := chain' }, .error .keyNotFound)
    | some v =>
      ({ s with chain := chain', cache := alErase s.cache k, size := s.size - 1 }, .ok (k, v))

end LFUCache

namespace VolatileLFUCache

/-- State of `VolatileLFUCache`: the `VolatileCache` fields plus the
`LFULinkedList` frequency chain.  The callback log records the arguments of
`self._callback(_key, _value)`, which `_evict` may call with `(None, None)`. -/
structure VF : Type where
  cache : List (Nat × Nat)
  size : Nat
  cap : Nat
  expires : List (Nat × Nat)
  chain : LFULinkedList.Chain
  cbLog : List (Option Nat × Option Nat)
  deriving DecidableEq, Repr

/-- `VolatileLFUCache(capacity)`: fresh empty cache. -/
def fresh (cap : Nat) : VF := ⟨[], 0, cap, [], [], []⟩

/-- `VolatileLFUCache.popitem`: `(None, None)` when `_expires_map` is empty;
otherwise `self.__lfu.popleft()` (whose `KeyError("cannot pop from empty
cache.")` escapes — there is no `try` here), then
`VolatileCache.__getitem__` (`KeyError` when the popped key is not in the
map, escaping after the chain was mutated) and `VolatileCache.__delitem__`. -/
def popitem (s : VF) : VF × Except CErr (Option Nat × Option Nat) :=
  if s.expires = [] then (s, .ok (none, none))
  else
    match LFULinkedList.popleft? s.chain with
    | none => (s, .error .emptyCache)
    | some (k, chain') =>
      match alGet? s.cache k with
      | none => ({ s with chain := chain' }, .error .keyNotFound)
      | some v =>
        ({ s with chain := chain', cache := alErase s.cache k,
                  expires := alErase s.expires k, size := s.size - 1 }, .ok (some k, some v))

/-- The `while self.__size >= self.__capacity and self._expires_map:
self._evict()` admission loop of `VolatileCache.__setitem__`, dispatching to
`VolatileLFUCache._evict` (= `popitem` + callback, with no exception
handling), with `popitem`'s body inlined; inside the loop `_expires_map` is
non-empty, so `popitem`'s `(None, None)` branch is never taken. -/
def evictLoop (s : VF) : VF × Option CErr :=
  if s.cap ≤ s.size ∧ s.expires ≠ [] then
    match h : LFULinkedList.popleft? s.chain with
    | none => (s, some .emptyCache)
    | some (k, chain') =>
      match alGet? s.cache k with
      | none => ({ s with chain := chain' }, some .keyNotFound)
      | some v =>
        evictLoop { s with chain := chain', cache := alErase s.cache k,
                           expires := alErase s.expires k, size := s.size - 1,
                           cbLog := s.cbLog ++ [(some k, some v)] }
  else (s, none)
termination_by (LFULinkedList.chainKeys s.chain).length
decreasing_by
  have key : ∀ (c : LFULinkedList.Chain) (k : Nat) (c' : LFULinkedList.Chain),
      LFULinkedList.popleft? c = some (k, c') →
      (LFULinkedList.chainKeys c').length < (LFULinkedList.chainKeys c).length := by
    intro c
    induction c with
    | nil => intro k c' hh; simp [LFULinkedList.popleft?] at hh
    | cons b rest ih =>
      intro k c' hh
      obtain ⟨f, items⟩ := b
      cases items with
      | nil =>
        simp only [LFULinkedList.popleft?] at hh
        cases hr : LFULinkedList.popleft? rest with
        | none => rw [hr] at hh; simp at hh
        | some p =>
          obtain ⟨k0, rest'⟩ := p
          rw [hr] at hh
          simp only [Option.some.injEq, Prod.mk.injEq] at hh
          obtain ⟨rfl, rfl⟩ := hh
          have := ih _ rest' hr
          simp only [LFULinkedList.chainKeys, List.map_cons, List.flatten_cons] at this ⊢
          simpa using this
      | cons k0 items' =>
        simp only [LFULinkedList.popleft?, Option.some.injEq, Prod.mk.injEq] at hh
        obtain ⟨rfl, rfl⟩ := hh
        simp [LFULinkedList.chainKeys]
  exact key s.chain k chain' h

/-- `VolatileLFUCache.__setitem__` on `(key, expires)` with value `v`:
`VolatileCache.__setitem__` (admission loop for a new key, then insert if
below capacity, else discard; overwrite in place for an existing key;
`_expires_map` updated only when `expires` is true), then the frequency
chain update keyed on `node_cache` membership: delete when the key is
chained and `expires` turned false, increment when chained and `expires`
true, insert when unchained and `expires` true — run even when the write
was discarded. -/
def setitem (s : VF) (k : Nat) (expFlag : Bool) (v : Nat) : VF × Option CErr :=
  let base : VF × Option CErr :=
    if k ∈ alKeys s.cache then
      ({ s with cache := alSet s.cache k v,
                expires := if expFlag then alSet s.expires k v else s.expires }, none)
    else
      match evictLoop s with
      | (s', some e) => (s', some e)
      | (s', none) =>
        if s'.size < s'.cap then
          ({ s' with cache := s'.cache ++ [(k, v)],
                     expires := if expFlag then alSet s'.expires k v else s'.expires,
                     size := s'.size + 1 }, none)
        else (s', none)
  match base with
  | (s1, some e) => (s1, some e)
  | (s1, none) =>
    if k ∈ LFULinkedList.chainKeys s1.chain then
      if expFlag then ({ s1 with chain := LFULinkedList.increment s1.chain k }, none)
      else ({ s1 with chain := LFULinkedList.delete s1.chain k }, none)
    else
      if expFlag then ({ s1 with chain := LFULinkedList.insert s1.chain k }, none)
      else (s1, none)

/-- `VolatileLFUCache.__getitem__`: `VolatileCache.__getitem__`, then
increment the key's frequency when it is in `node_cache`. -/
def getitem (s : VF) (k : Nat) : VF × Except CErr Nat :=
  match alGet? s.cache k with
  | none => (s, .error .keyNotFound)
  | some v =>
    (if k ∈ LFULinkedList.chainKeys s.chain
     then { s with chain := LFULinkedList.increment s.chain k } else s, .ok v)

/-- `VolatileCache.__contains__`. -/
def containsKey (s : VF) (k : Nat) : Bool := decide (k ∈ alKeys s.cache)

end VolatileLFUCache

namespace TTLCache

/-- State of `TTLCache`: the inherited `LRUCache` fields, the fixed `__ttl`,
and the expiry ledger.  `_links` (the key → `_TTLLink` dict) and `_list`
(the `_TTLLinkedList` of the same links) always hold the same `(key,
expiry)` pairs, with `_list` in insertion order (tail-append), so both are
represented by the single list `links` in `_list` order. -/
structure TS : Type where
  cache : List (Nat × Nat)
  size : Nat
  cap : Nat
  lru : List (Nat × Nat)
  links : List (Nat × Nat)
  ttl : Nat
  cbLog : List (Nat × Nat)
  deriving DecidableEq, Repr

/-- `TTLCache(capacity, ttl, _time=...)`: fresh empty cache.  The injected
clock `_time` and the module-level `time.monotonic` are modelled as the
explicit arguments `injNow` / `realNow` of the operations that call them. -/
def fresh (cap ttl : Nat) : TS := ⟨[], 0, cap, [], [], ttl, []⟩

/-- The `expire` decorator's sweep.  The decorator is applied as
`@expire(_time=time.monotonic)`, so the sweep compares each link's expiry
against the *module-level monotonic clock* (`realNow`), not the injected
`self._time`.  It walks `_list` from the head, removing each expired link
via `LRUCache.__delitem__` (whose `KeyError`, possible only from a ledger
desync, escapes mid-sweep), and stops at the first unexpired link. -/
def sweep (s : TS) (realNow : Nat) : TS × Option CErr :=
  match h : s.links with
  | [] => (s, none)
  | (k, e) :: rest =>
    if e ≤ realNow then
      if k ∈ alKeys s.cache then
        if k ∈ alKeys s.lru then
          sweep { s with cache := alErase s.cache k, size := s.size - 1,
                         lru := alErase s.lru k, links := rest } realNow
        else ({ s with cache := alErase s.cache k, size := s.size - 1 }, some .keyNotFound)
      else (s, some .keyNotFound)
    else (s, none)
termination_by s.links.length
decreasing_by simp [h]

/-- The inherited admission loop, dispatching to `TTLCache._evict`
(`LRUCache.popitem`, then removal of the victim's expiry link — `KeyError`
from `self._links[_key]` when the link is missing — then the callback);
`TTLCache._evict` has no exception handler, so `popitem`'s errors escape
unchanged. -/
def evictLoop (s : TS) : TS × Option CErr :=
  if s.size < s.cap then (s, none)
  else
    match h : s.lru with
    | [] => (s, some .emptyCache)
    | (k, v) :: rest =>
      if k ∈ alKeys s.cache then
        if k ∈ alKeys s.links then
          evictLoop { s with lru := rest, cache := alErase s.cache k, size := s.size - 1,
                             links := alErase s.links k, cbLog := s.cbLog ++ [(k, v)] }
        else ({ s with lru := rest, cache := alErase s.cache k, size := s.size - 1 },
              some .keyNotFound)
      else ({ s with lru := rest }, some .keyNotFound)
termination_by s.lru.length
decreasing_by simp [h]

/-- `TTLCache.__setitem__`: sweep (against the real clock `realNow`), then
`LRUCache.__setitem__`, then compute `expiry = self._time() + self.__ttl`
from the *injected* clock (`injNow`) and append the key's link at the tail
of `_list` (removing the old link first on overwrite). -/
def setitem (s : TS) (k v : Nat) (injNow realNow : Nat) : TS × Option CErr :=
  match sweep s realNow with
  | (s0, some e) => (s0, some e)
  | (s0, none) =>
    let base : TS × Option CErr :=
      if k ∈ alKeys s0.cache then
        let s1 : TS := { s0 with cache := alSet s0.cache k v }
        ({ s1 with lru := odMoveMRU (alSet s1.lru k v) k }, none)
      else
        match evictLoop s0 with
        | (s', some e) => (s', some e)
        | (s', none) =>
          let s1 : TS := { s' with cache := s'.cache ++ [(k, v)], size := s'.size + 1 }
          ({ s1 with lru := odMoveMRU (alSet s1.lru k v) k }, none)
    match base with
    | (s1, some e) => (s1, some e)
    | (s1, none) =>
      ({ s1 with links := alErase s1.links k ++ [(k, injNow + s1.ttl)] }, none)

/-- `TTLCache.__getitem__`: sweep (against the real clock), then
`LRUCache.__getitem__`.  The injected clock is not consulted at all. -/
def getitem (s : TS) (k : Nat) (realNow : Nat) : TS × Except CErr Nat :=
  match sweep s realNow with
  | (s0, some e) => (s0, .error e)
  | (s0, none) =>
    match alGet? s0.cache k with
    | none => (s0, .error .keyNotFound)
    | some v => ({ s0 with lru := odMoveMRU s0.lru k }, .ok v)

/-- `TTLCache.get`: `__getitem__` with the `KeyError` turned into the
default. -/
def get (s : TS) (k : Nat) (dflt : Option Nat) (realNow : Nat) : TS × Except CErr (Option Nat) :=
  match getitem s k realNow with
  | (s1, .ok v) => (s1, .ok (some v))
  | (s1, .error .keyNotFound) => (s1, .ok dflt)
  | (s1, .error e) => (s1, .error e)

/-- `TTLCache.__contains__`: sweep (against the real clock), then the map
membership test. -/
def containsKey (s : TS) (k : Nat) (realNow : Nat) : TS × Except CErr Bool :=
  match sweep s realNow with
  | (s0, some e) => (s0, .error e)
  | (s0, none) => (s0, .ok (decide (k ∈ alKeys s0.cache)))

/-- `TTLCache.popitem` (not decorated with `expire`): `LRUCache.popitem`,
then removal of the victim's expiry link; the popped pair is *not* returned
(the method has no `return` statement, so Python returns `None`). -/
def popitem (s : TS) : TS × Except CErr Unit :=
  match s.lru with
  | [] => (s, .error .emptyCache)
  | (k, _v) :: rest =>
    if k ∈ alKeys s.cache then
      let s1 : TS := { s with lru := rest, cache := alErase s.cache k, size := s.size - 1 }
      if k ∈ alKeys s1.links then ({ s1 with links := alErase s1.links k }, .ok ())
      else (s1, .error .keyNotFound)
    else ({ s with lru := rest }, .error .keyNotFound)

end TTLCache

/-- `RandomCache.__delitem__`'s index bookkeeping on `self.set`: swap the
removed key's slot with the last slot (updating the moved key's index),
then `set.pop()`.  Called only with `k` present in the list. -/
def swapRemove (l : List Nat) (k : Nat) : List Nat :=
  match l.getLast? with
  | none => l
  | some last =>
    let i := l.indexOf k
    if i < l.length - 1 then (l.set i last).dropLast else l.dropLast

namespace RandomCache

/-- State of `RandomCache`: the inherited `RCache` fields plus the dense key
array `self.set` (named `arr` here; `idx_map` is its index function and is
represented implicitly by positions in `arr`). -/
structure RandS : Type where
  cache : List (Nat × Nat)
  size : Nat
  cap : Nat
  arr : List Nat
  cbLog : List (Nat × Nat)
  deriving DecidableEq, Repr

/-- `RandomCache.popitem`: `random.choice(self.set)` — modelled by the
oracle index `choice`, reduced modulo the array length; an empty array makes
`random.choice` raise, which the bare `except` converts to
`KeyError("cannot pop from empty cache")`.  The chosen key is read through
`RCache.__getitem__` and removed with `del self[_key]`
(= `RCache.__delitem__` plus the swap-with-last array removal). -/
def popitem (s : RandS) (choice : Nat) : RandS × Except CErr (Nat × Nat) :=
  match s.arr with
  | [] => (s, .error .emptyCache)
  | a :: l =>
    let k := (a :: l).getD (choice % (a :: l).length) 0
    match alGet? s.cache k with
    | none => (s, .error .keyNotFound)
    | some v =>
      ({ s with cache := alErase s.cache k, size := s.size - 1,
                arr := swapRemove s.arr k }, .ok (k, v))

end RandomCache

namespace VolatileRandomCache

/-- State of `VolatileRandomCache`: the `VolatileCache` fields plus the
dense array `self._set` of expiring keys. -/
structure VRandS : Type where
  cache : List (Nat × Nat)
  size : Nat
  cap : Nat
  expires : List (Nat × Nat)
  arr : List Nat
  cbLog : List (Nat × Nat)
  deriving DecidableEq, Repr

/-- `VolatileRandomCache.popitem`: `random.choice(self._set)` (raising
`KeyError("cannot pop from empty cache")` when `_set` is empty, even if the
primary map is not), then `VolatileCache.__getitem__` and `del self[_key]`
(= `VolatileCache.__delitem__` plus, when the key is indexed, the
swap-with-last array removal). -/
def popitem (s : VRandS) (choice : Nat) : VRandS × Except CErr (Nat × Nat) :=
  match s.arr with
  | [] => (s, .error .emptyCache)
  | a :: l =>
    let k := (a :: l).getD (choice % (a :: l).length) 0
    match alGet? s.cache k with
    | none => (s, .error .keyNotFound)
    | some v =>
      ({ s with cache := alErase s.cache k, expires := alErase s.expires k,
                size := s.size - 1,
                arr := if k ∈ s.arr then swapRemove s.arr k else s.arr }, .ok (k, v))

end VolatileRandomCache

namespace VolatileTTLCache

/-- State of `VolatileTTLCache(capacity, ttl)`: the inherited
`VolatileLRUCache` fields plus `_links` (the dict mapping keys to their
`_TTLLink`s, modelled as key ↦ expiry) and `_list` (the `_TTLLinkedList`
of links in time-ascending order, modelled as its key/expiry sequence). -/
structure VTS : Type where
  cache : List (Nat × Nat)
  size : Nat
  cap : Nat
  expires : List (Nat × Nat)
  lru : List (Nat × Nat)
  links : List (Nat × Nat)
  tlist : List (Nat × Nat)
  cbLog : List (Nat × Nat)
  deriving DecidableEq, Repr

/-- The `VolatileLRUCache` portion of the state, on which the explicitly
delegated parent methods operate. -/
def toVS (s : VTS) : VolatileLRUCache.VS :=
  ⟨s.cache, s.size, s.cap, s.expires, s.lru, s.cbLog⟩

/-- Write an updated `VolatileLRUCache` portion back into the state
(`_links` and `_list` are untouched by the parent methods). -/
def ofVS (s : VTS) (v : VolatileLRUCache.VS) : VTS :=
  { s with cache := v.cache, size := v.size, cap := v.cap,
           expires := v.expires, lru := v.lru, cbLog := v.cbLog }

/-- `VolatileTTLCache.popitem`: `_key, _value =
VolatileLRUCache.popitem(self)` (any `KeyError` propagates), then
`if _key in self._list:` — but `self._list` is a `_TTLLinkedList`, which
defines neither `__contains__` nor `__iter__` nor `__getitem__`, so the
membership test raises `TypeError` whenever the inner `popitem` produced a
victim.  By then the map entry, `_lru` entry and `_expires_map` entry are
gone, `_links`/`_list` keep the stale expiry link, and nothing is
returned. -/
def popitem (s : VTS) : VTS × Except CErr (Nat × Nat) :=
  match VolatileLRUCache.popitem (toVS s) with
  | (v', .error e) => (ofVS s v', .error e)
  | (v', .ok _) => (ofVS s v', .error .typeError)

end VolatileTTLCache

/-! ## Association-list lemmas -/

theorem alGet?_eq_none_iff (m : List (Nat × Nat)) (k : Nat) :
    alGet? m k = none ↔ k ∉ alKeys m := by
  induction m with
  | nil => simp [alGet?, alKeys]
  | cons p t ih =>
    by_cases h : p.1 = k
    · simp [alGet?, alKeys, List.find?, h]
    · simp only [alGet?, List.find?, alKeys, List.map_cons, List.mem_cons] at *
      rw [decide_eq_false h]
      simpa [Ne.symm h] using ih

theorem alGet?_isSome_of_mem {m : List (Nat × Nat)} {k : Nat} (h : k ∈ alKeys m) :
    ∃ v, alGet? m k = some v := by
  rcases hg : alGet? m k with _ | v
  · exact absurd ((alGet?_eq_none_iff m k).mp hg) (by simpa using h)
  · exact ⟨v, rfl⟩

theorem alSet_of_not_mem {m : List (Nat × Nat)} {k : Nat} (v : Nat) (h : k ∉ alKeys m) :
    alSet m k v = m ++ [(k, v)] := by
  induction m with
  | nil => simp [alSet]
  | cons p t ih =>
    simp only [alKeys, List.map_cons, List.mem_cons, not_or] at h
    have h1 : ¬p.1 = k := fun e => h.1 e.symm
    have h2 : k ∉ alKeys t := h.2
    simp [alSet, h1, ih h2]

theorem alKeys_alSet_of_mem {m : List (Nat × Nat)} {k : Nat} (v : Nat) (h : k ∈ alKeys m) :
    alKeys (alSet m k v) = alKeys m := by
  induction m with
  | nil => simp [alKeys] at h
  | cons p t ih =>
    by_cases hp : p.1 = k
    · simp [alSet, alKeys, hp]
    · simp only [alKeys, List.map_cons, List.mem_cons] at h
      rcases h with h | h
      · exact absurd h.symm hp
      · have h3 : alKeys (alSet t k v) = alKeys t := ih h
        simp only [alKeys] at h3
        simp [alSet, alKeys, hp, h3]

theorem length_alSet_of_mem {m : List (Nat × Nat)} {k : Nat} (v : Nat) (h : k ∈ alKeys m) :
    (alSet m k v).length = m.length := by
  have h1 : (alKeys (alSet m k v)).length = (alKeys m).length := by
    rw [alKeys_alSet_of_mem v h]
  simpa [alKeys] using h1

theorem alErase_of_not_mem {m : List (Nat × Nat)} {k : Nat} (h : k ∉ alKeys m) :
    alErase m k = m := by
  induction m with
  | nil => simp [alErase]
  | cons p t ih =>
    simp only [alKeys, List.map_cons, List.mem_cons, not_or] at h
    have h1 : ¬p.1 = k := fun e => h.1 e.symm
    have h2 : k ∉ alKeys t := h.2
    simp [alErase, h1, ih h2]

theorem alKeys_alErase (m : List (Nat × Nat)) (k : Nat) :
    alKeys (alErase m k) = (alKeys m).erase k := by
  induction m with
  | nil => simp [alErase, alKeys]
  | cons p t ih =>
    by_cases hp : p.1 = k
    · simp [alErase, alKeys, hp, List.erase_cons_head]
    · have hb : ¬((p.1 : Nat) == k) = true := by simpa using hp
      have h3 : List.map Prod.fst (alErase t k) = (List.map Prod.fst t).erase k := by
        simpa [alKeys] using ih
      simp [alErase, alKeys, hp, List.erase_cons_tail hb, h3]

theorem length_alErase_of_mem {m : List (Nat × Nat)} {k : Nat} (h : k ∈ alKeys m) :
    (alErase m k).length + 1 = m.length := by
  have h1 : (alKeys (alErase m k)).length = (alKeys m).length - 1 := by
    rw [alKeys_alErase]; exact List.length_erase_of_mem h
  have h2 : 1 ≤ (alKeys m).length :=
    List.length_pos.mpr (by intro he; rw [he] at h; cases h)
  simp only [alKeys, List.length_map] at h1 h2
  omega

theorem nodup_alKeys_alErase {m : List (Nat × Nat)} (k : Nat)
    (h : (alKeys m).Nodup) : (alKeys (alErase m k)).Nodup := by
  rw [alKeys_alErase]; exact h.erase k

theorem not_mem_alKeys_alErase {m : List (Nat × Nat)} {k : Nat}
    (h : (alKeys m).Nodup) : k ∉ alKeys (alErase m k) := by
  rw [alKeys_alErase]; exact h.not_mem_erase

theorem mem_alKeys_alErase_of_ne {m : List (Nat × Nat)} {j k : Nat} (hne : j ≠ k) :
    j ∈ alKeys (alErase m k) ↔ j ∈ alKeys m := by
  rw [alKeys_alErase]; exact List.mem_erase_of_ne hne

theorem alGet?_append_fresh {m : List (Nat × Nat)} {k : Nat} (v : Nat) (h : k ∉ alKeys m) :
    alGet? (m ++ [(k, v)]) k = some v := by
  induction m with
  | nil => simp [alGet?, List.find?]
  | cons p t ih =>
    simp only [alKeys, List.map_cons, List.mem_cons, not_or] at h
    have h1 : ¬p.1 = k := fun e => h.1 e.symm
    have h2 : k ∉ alKeys t := h.2
    simp only [alGet?, List.cons_append, List.find?, decide_eq_false h1]
    exact ih h2

theorem alErase_append_fresh {m : List (Nat × Nat)} {k : Nat} (v : Nat) (h : k ∉ alKeys m) :
    alErase (m ++ [(k, v)]) k = m := by
  induction m with
  | nil => simp [alErase]
  | cons p t ih =>
    simp only [alKeys, List.map_cons, List.mem_cons, not_or] at h
    have h1 : ¬p.1 = k := fun e => h.1 e.symm
    have h2 : k ∉ alKeys t := h.2
    simp [alErase, h1, ih h2]

theorem odMoveMRU_append_fresh {m : List (Nat × Nat)} {k : Nat} (v : Nat) (h : k ∉ alKeys m) :
    odMoveMRU (m ++ [(k, v)]) k = m ++ [(k, v)] := by
  rw [odMoveMRU]
  rw [alGet?_append_fresh v h, alErase_append_fresh v h]

theorem alKeys_odMoveMRU_subset (m : List (Nat × Nat)) (k : Nat) :
    alKeys (odMoveMRU m k) ⊆ alKeys m := by
  rw [odMoveMRU]
  rcases hg : alGet? m k with _ | v
  · exact fun a ha => ha
  · have hk : k ∈ alKeys m := by
      by_contra hk
      rw [(alGet?_eq_none_iff m k).mpr hk] at hg
      cases hg
    intro a ha
    simp only [alKeys, List.map_append, List.mem_append, List.map_cons, List.map_nil,
      List.mem_cons, List.not_mem_nil, or_false] at ha
    rcases ha with ha | ha
    · have ha2 : a ∈ (alKeys m).erase k := by
        have : a ∈ alKeys (alErase m k) := by simpa [alKeys] using ha
        rwa [alKeys_alErase] at this
      exact List.erase_subset _ _ ha2
    · subst ha
      exact hk

theorem alKeys_alSet_subset (m : List (Nat × Nat)) (k v : Nat) :
    alKeys (alSet m k v) ⊆ k :: alKeys m := by
  by_cases h : k ∈ alKeys m
  · rw [alKeys_alSet_of_mem v h]
    exact fun a ha => List.mem_cons_of_mem _ ha
  · rw [alSet_of_not_mem v h]
    intro a ha
    simp only [alKeys, List.map_append, List.mem_append, List.map_cons, List.map_nil,
      List.mem_cons, List.not_mem_nil, or_false] at ha
    rcases ha with ha | ha
    · exact List.mem_cons_of_mem _ ha
    · subst ha
      exact List.mem_cons_self _ _

/-! ## `RCache` lemmas -/

theorem mem_alKeys_of_alGet?_eq_some {m : List (Nat × Nat)} {k v : Nat}
    (h : alGet? m k = some v) : k ∈ alKeys m := by
  by_contra hk
  rw [(alGet?_eq_none_iff m k).mpr hk] at h
  cases h

namespace RCache

theorem evictFrom_spec (cache : List (Nat × Nat)) (cap : Nat) (log : List (Nat × Nat))
    (hcap : 1 ≤ cap) :
    evictFrom cache cache.length cap log =
      ((cache.drop (cache.length + 1 - cap), min cache.length (cap - 1),
        log ++ cache.take (cache.length + 1 - cap)), none) := by
  induction cache generalizing log with
  | nil =>
    have h0 : (0 : Nat) < cap := hcap
    simp [evictFrom, h0, Nat.min_eq_left (by omega : (0 : Nat) ≤ cap - 1)]
  | cons p rest ih =>
    rw [evictFrom]
    by_cases h : (p :: rest).length < cap
    · rw [if_pos h]
      simp only [List.length_cons] at h
      have hd : (p :: rest).length + 1 - cap = 0 := by simp only [List.length_cons]; omega
      have hm : min (p :: rest).length (cap - 1) = (p :: rest).length := by
        simp only [List.length_cons]; omega
      rw [hd, hm, List.drop_zero, List.take_zero, List.append_nil]
    · rw [if_neg h]
      simp only [List.length_cons] at h
      obtain ⟨k, v⟩ := p
      have hrec : rest.length + 1 - 1 = rest.length := by omega
      rw [List.length_cons, hrec, ih (log ++ [(k, v)])]
      have hd : rest.length + 1 + 1 - cap = (rest.length + 1 - cap) + 1 := by omega
      have hm : min (rest.length + 1) (cap - 1) = min rest.length (cap - 1) := by omega
      rw [hd, hm, List.drop_succ_cons, List.take_succ_cons]
      simp

theorem setitem_spec_new (s : RS) (k v : Nat) (hk : k ∉ alKeys s.cache)
    (hsz : s.size = s.cache.length) (hcap : 1 ≤ s.cap) :
    setitem s k v =
      ({ cache := s.cache.drop (s.cache.length + 1 - s.cap) ++ [(k, v)],
         size := min s.cache.length (s.cap - 1) + 1,
         cap := s.cap,
         cbLog := s.cbLog ++ s.cache.take (s.cache.length + 1 - s.cap) }, none) := by
  rw [setitem, if_neg hk, evictLoop, hsz, evictFrom_spec s.cache s.cap s.cbLog hcap]

theorem setitem_spec_overwrite (s : RS) (k v : Nat) (hk : k ∈ alKeys s.cache) :
    setitem s k v = ({ s with cache := alSet s.cache k v }, none) := by
  rw [setitem, if_pos hk]

theorem nodup_setitem_cache {s : RS} (k v : Nat) (h : (alKeys s.cache).Nodup)
    (hsz : s.size = s.cache.length) (hcap : 1 ≤ s.cap) :
    (alKeys (setitem s k v).1.cache).Nodup := by
  by_cases hk : k ∈ alKeys s.cache
  · rw [setitem_spec_overwrite s k v hk]
    simpa [alKeys_alSet_of_mem v hk] using h
  · rw [setitem_spec_new s k v hk hsz hcap]
    simp only [alKeys, List.map_append, List.map_cons, List.map_nil]
    rw [List.nodup_append]
    refine ⟨?_, by simp, ?_⟩
    · have hsub : List.Sublist
          (List.map Prod.fst (s.cache.drop (s.cache.length + 1 - s.cap)))
          (List.map Prod.fst s.cache) := (List.drop_sublist _ _).map _
      exact hsub.nodup h
    · intro a ha
      have hsub : List.map Prod.fst (s.cache.drop (s.cache.length + 1 - s.cap))
          ⊆ List.map Prod.fst s.cache := ((List.drop_sublist _ _).map _).subset
      have : a ∈ alKeys s.cache := hsub ha
      simp only [List.mem_cons, List.not_mem_nil, or_false]
      rintro rfl
      exact hk this

theorem consistent_setitem {s : RS} (k v : Nat) (h : Consistent s) :
    Consistent (setitem s k v).1 := by
  obtain ⟨hsz, hnd, hle, hcap⟩ := h
  by_cases hk : k ∈ alKeys s.cache
  · rw [setitem_spec_overwrite s k v hk]
    exact ⟨by simpa [length_alSet_of_mem v hk] using hsz,
      by simpa [alKeys_alSet_of_mem v hk] using hnd,
      by simpa [length_alSet_of_mem v hk] using hle, hcap⟩
  · have hnodup := nodup_setitem_cache k v hnd hsz hcap
    rw [setitem_spec_new s k v hk hsz hcap] at hnodup ⊢
    refine ⟨?_, hnodup, ?_, hcap⟩
    · simp only [List.length_append, List.length_drop, List.length_cons, List.length_nil]
      omega
    · simp only [List.length_append, List.length_drop, List.length_cons, List.length_nil]
      omega

theorem consistent_delitem {s : RS} (k : Nat) (h : Consistent s) :
    Consistent (delitem s k).1 := by
  obtain ⟨hsz, hnd, hle, hcap⟩ := h
  rw [delitem]
  by_cases hk : k ∈ alKeys s.cache
  · rw [if_pos hk]
    have hlen := length_alErase_of_mem hk
    exact ⟨by simp; omega, nodup_alKeys_alErase k hnd, by simp; omega, hcap⟩
  · rw [if_neg hk]
    exact ⟨hsz, hnd, hle, hcap⟩

theorem consistent_pop {s : RS} (k : Nat) (dflt : Option Nat) (h : Consistent s) :
    Consistent (pop s k dflt).1 := by
  rcases hg : getitem? s k with _ | v
  · rcases dflt with _ | d <;> simp only [pop, hg] <;> exact h
  · simp only [pop, hg]
    exact consistent_delitem k h

theorem consistent_popitem {s : RS} (h : Consistent s) :
    Consistent (popitem s).1 := by
  obtain ⟨hsz, hnd, hle, hcap⟩ := h
  rcases hg : s.cache.getLast? with _ | p
  · simp only [popitem, hg]
    exact ⟨hsz, hnd, hle, hcap⟩
  · obtain ⟨k, v⟩ := p
    simp only [popitem, hg]
    have hne : s.cache ≠ [] := by intro he; rw [he] at hg; simp at hg
    have hpos : 0 < s.cache.length := List.length_pos.mpr hne
    refine ⟨by simp only [List.length_dropLast]; omega, ?_, ?_, hcap⟩
    · have hsub : List.Sublist (alKeys s.cache.dropLast) (alKeys s.cache) :=
        (List.dropLast_sublist _).map _
      exact hsub.nodup hnd
    · simp only [List.length_dropLast]
      omega

theorem consistent_step {s : RS} (op : Op) (h : Consistent s) : Consistent (step s op) := by
  cases op with
  | set k v => exact consistent_setitem k v h
  | get _ => exact h
  | del k => exact consistent_delitem k h
  | pop k d => exact consistent_pop k d h
  | popitem => exact consistent_popitem h
  | contains _ => exact h
  | len => exact h

theorem consistent_run {s : RS} (ops : List Op) (h : Consistent s) :
    Consistent (run s ops) := by
  induction ops generalizing s with
  | nil => exact h
  | cons op ops ih => exact ih (consistent_step op h)

theorem consistent_fresh {cap : Nat} (hcap : 1 ≤ cap) : Consistent (fresh cap) :=
  ⟨rfl, List.nodup_nil, by simp [fresh], hcap⟩

theorem card_contains {s : RS} (h : (alKeys s.cache).Nodup) :
    Set.ncard {k | containsKey s k = true} = lenCache s := by
  have hset : {k | containsKey s k = true} = ↑(alKeys s.cache).toFinset := by
    ext a
    simp [containsKey, List.mem_toFinset]
  rw [hset, Set.ncard_coe_Finset, List.toFinset_card_of_nodup h]
  simp [lenCache, alKeys]

end RCache

namespace RCache

theorem setAll_spec (val : Nat → Nat) (ks : List Nat) :
    ∀ (s : RS), Consistent s → ks.Nodup → (∀ j ∈ ks, j ∉ alKeys s.cache) →
      Consistent (setAll s ks val) ∧
      (setAll s ks val).cap = s.cap ∧
      lenCache (setAll s ks val) = min (lenCache s + ks.length) s.cap ∧
      (∀ klast, ks.getLast? = some klast → containsKey (setAll s ks val) klast = true) := by
  induction ks with
  | nil =>
    intro s hc _ _
    refine ⟨hc, rfl, ?_, by intro klast h; cases h⟩
    have hle := hc.2.2.1
    simp only [setAll, List.foldl_nil, List.length_nil, Nat.add_zero, lenCache]
    omega
  | cons k ks ih =>
    intro s hc hnd hfresh
    obtain ⟨hsz, hnodup, hle, hcap⟩ := hc
    have hkf : k ∉ alKeys s.cache := hfresh k (List.mem_cons_self _ _)
    have hstep : setAll s (k :: ks) val = setAll (setitem s k (val k)).1 ks val := by
      simp [setAll]
    have hspec := setitem_spec_new s k (val k) hkf hsz hcap
    have hc1 : Consistent (setitem s k (val k)).1 :=
      consistent_setitem k (val k) ⟨hsz, hnodup, hle, hcap⟩
    have hkeys1 : alKeys (setitem s k (val k)).1.cache =
        alKeys (s.cache.drop (s.cache.length + 1 - s.cap)) ++ [k] := by
      rw [hspec]
      simp [alKeys]
    have hlen1 : lenCache (setitem s k (val k)).1 = min (lenCache s + 1) s.cap := by
      rw [hspec]
      simp only [lenCache, List.length_append, List.length_drop, List.length_cons,
        List.length_nil]
      omega
    have hcap1 : (setitem s k (val k)).1.cap = s.cap := by rw [hspec]
    have hfresh1 : ∀ j ∈ ks, j ∉ alKeys (setitem s k (val k)).1.cache := by
      intro j hj hmem
      rw [hkeys1] at hmem
      rcases List.mem_append.mp hmem with hm | hm
      · have hsub : alKeys (s.cache.drop (s.cache.length + 1 - s.cap)) ⊆ alKeys s.cache :=
          ((List.drop_sublist _ _).map _).subset
        exact hfresh j (List.mem_cons_of_mem _ hj) (hsub hm)
      · have : j = k := by simpa using hm
        subst this
        exact (List.nodup_cons.mp hnd).1 hj
    have hmem1 : k ∈ alKeys (setitem s k (val k)).1.cache := by
      rw [hkeys1]
      simp
    obtain ⟨ihc, ihcap, ihlen, ihlast⟩ :=
      ih (setitem s k (val k)).1 hc1 (List.nodup_cons.mp hnd).2 hfresh1
    rw [hstep]
    refine ⟨ihc, by rw [ihcap, hcap1], ?_, ?_⟩
    · rw [ihlen, hlen1, hcap1]
      simp only [List.length_cons]
      omega
    · intro klast hlast
      rcases hks : ks with _ | ⟨k2, ks2⟩
      · subst hks
        simp only [List.getLast?_singleton, Option.some.injEq] at hlast
        subst hlast
        simp only [setAll, List.foldl_nil, containsKey, decide_eq_true_eq]
        exact hmem1
      · subst hks
        apply ihlast
        rw [← hlast, List.getLast?_cons_cons]

/-- C1: for every set on the base cache engine: a new key first triggers
evictions until `size < capacity` (removing the `size + 1 - capacity`
oldest entries, each passed to the callback) and is then inserted with
`size` incremented by one; an existing key is overwritten in place with
`size` and the key set unchanged.  Consequently inserting `capacity + 1`
distinct keys into a fresh cache of positive capacity leaves
`len(cache) = capacity` with the most recently inserted key present. -/
theorem claim_C1 (s : RS) (k v : Nat)
    (hsz : s.size = s.cache.length) (hcap : 1 ≤ s.cap)
    (cap : Nat) (hc : 1 ≤ cap) (ks : List Nat) (hnd : ks.Nodup)
    (hlen : ks.length = cap + 1) (val : Nat → Nat) :
    (k ∉ alKeys s.cache →
      (setitem s k v).2 = none ∧
      (setitem s k v).1.size = min s.size (s.cap - 1) + 1 ∧
      (setitem s k v).1.size ≤ s.cap ∧
      containsKey (setitem s k v).1 k = true ∧
      (setitem s k v).1.cache = s.cache.drop (s.size + 1 - s.cap) ++ [(k, v)] ∧
      (setitem s k v).1.cbLog = s.cbLog ++ s.cache.take (s.size + 1 - s.cap)) ∧
    (k ∈ alKeys s.cache →
      setitem s k v = ({ s with cache := alSet s.cache k v }, none) ∧
      (setitem s k v).1.size = s.size ∧
      alKeys (setitem s k v).1.cache = alKeys s.cache) ∧
    (lenCache (setAll (fresh cap) ks val) = cap ∧
      ∀ klast, ks.getLast? = some klast →
        containsKey (setAll (fresh cap) ks val) klast = true) := by
  refine ⟨?_, ?_, ?_⟩
  · intro hk
    have hspec := setitem_spec_new s k v hk hsz hcap
    rw [hspec]
    refine ⟨rfl, by simp [hsz], by simp <;> omega, ?_, by simp [hsz], by simp [hsz]⟩
    simp [containsKey, alKeys]
  · intro hk
    have hspec := setitem_spec_overwrite s k v hk
    exact ⟨hspec, by rw [hspec], by rw [hspec]; exact alKeys_alSet_of_mem v hk⟩
  · have hfresh : ∀ j ∈ ks, j ∉ alKeys (fresh cap).cache := by
      intro j _ hj
      simp [fresh, alKeys] at hj
    obtain ⟨_, _, hlen2, hlast⟩ := setAll_spec val ks (fresh cap) (consistent_fresh hc) hnd hfresh
    refine ⟨?_, hlast⟩
    rw [hlen2, hlen]
    simp only [fresh, lenCache, List.length_nil, Nat.zero_add]
    omega

/-- Witness for `RCache.claim_C1` at a concrete state and key list. -/
theorem claim_C1_witness :
    (⟨[(7, 1)], 1, 2, []⟩ : RS).size = (⟨[(7, 1)], 1, 2, []⟩ : RS).cache.length ∧
    1 ≤ (⟨[(7, 1)], 1, 2, []⟩ : RS).cap ∧ 1 ≤ 2 ∧ ([3, 4, 5] : List Nat).Nodup ∧
    ([3, 4, 5] : List Nat).length = 2 + 1 ∧
    ((8 ∉ alKeys (⟨[(7, 1)], 1, 2, []⟩ : RS).cache →
      (setitem ⟨[(7, 1)], 1, 2, []⟩ 8 9).2 = none ∧
      (setitem ⟨[(7, 1)], 1, 2, []⟩ 8 9).1.size =
        min (⟨[(7, 1)], 1, 2, []⟩ : RS).size ((⟨[(7, 1)], 1, 2, []⟩ : RS).cap - 1) + 1 ∧
      (setitem ⟨[(7, 1)], 1, 2, []⟩ 8 9).1.size ≤ (⟨[(7, 1)], 1, 2, []⟩ : RS).cap ∧
      containsKey (setitem ⟨[(7, 1)], 1, 2, []⟩ 8 9).1 8 = true ∧
      (setitem ⟨[(7, 1)], 1, 2, []⟩ 8 9).1.cache =
        (⟨[(7, 1)], 1, 2, []⟩ : RS).cache.drop
          ((⟨[(7, 1)], 1, 2, []⟩ : RS).size + 1 - (⟨[(7, 1)], 1, 2, []⟩ : RS).cap) ++ [(8, 9)] ∧
      (setitem ⟨[(7, 1)], 1, 2, []⟩ 8 9).1.cbLog =
        (⟨[(7, 1)], 1, 2, []⟩ : RS).cbLog ++
          (⟨[(7, 1)], 1, 2, []⟩ : RS).cache.take
            ((⟨[(7, 1)], 1, 2, []⟩ : RS).size + 1 - (⟨[(7, 1)], 1, 2, []⟩ : RS).cap)) ∧
    (8 ∈ alKeys (⟨[(7, 1)], 1, 2, []⟩ : RS).cache →
      setitem ⟨[(7, 1)], 1, 2, []⟩ 8 9 =
        ({ (⟨[(7, 1)], 1, 2, []⟩ : RS) with
            cache := alSet (⟨[(7, 1)], 1, 2, []⟩ : RS).cache 8 9 }, none) ∧
      (setitem ⟨[(7, 1)], 1, 2, []⟩ 8 9).1.size = (⟨[(7, 1)], 1, 2, []⟩ : RS).size ∧
      alKeys (setitem ⟨[(7, 1)], 1, 2, []⟩ 8 9).1.cache =
        alKeys (⟨[(7, 1)], 1, 2, []⟩ : RS).cache) ∧
    (lenCache (setAll (fresh 2) [3, 4, 5] (fun j => j)) = 2 ∧
      ∀ klast, ([3, 4, 5] : List Nat).getLast? = some klast →
        containsKey (setAll (fresh 2) [3, 4, 5] (fun j => j)) klast = true)) :=
  ⟨by decide, by decide, by decide, by decide, by decide,
    RCache.claim_C1 ⟨[(7, 1)], 1, 2, []⟩ 8 9 (by decide) (by decide) 2 (by decide)
      [3, 4, 5] (by decide) (by decide) (fun j => j)⟩

end RCache

/-! ## `VolatileLRUCache` lemmas -/

namespace VolatileLRUCache

theorem evictLoop_empty (x : VS) (hguard : x.cap ≤ x.size ∧ x.expires ≠ [])
    (hlru : x.lru = []) : evictLoop x = (x, some .emptyCache) := by
  rw [evictLoop.eq_def, if_pos hguard, hlru]

theorem evictLoop_step (x : VS) (hguard : x.cap ≤ x.size ∧ x.expires ≠ [])
    {k v : Nat} {rest : List (Nat × Nat)} (hlru : x.lru = (k, v) :: rest)
    (hk : k ∈ alKeys x.cache) :
    evictLoop x =
      evictLoop { x with lru := rest, cache := alErase x.cache k,
                         expires := alErase x.expires k, size := x.size - 1,
                         cbLog := x.cbLog ++ [(k, v)] } := by
  rw [evictLoop.eq_def, if_pos hguard, hlru]
  simp only [if_pos hk]

theorem evictLoop_stale (x : VS) (hguard : x.cap ≤ x.size ∧ x.expires ≠ [])
    {k v : Nat} {rest : List (Nat × Nat)} (hlru : x.lru = (k, v) :: rest)
    (hk : k ∉ alKeys x.cache) :
    evictLoop x = ({ x with lru := rest }, some .emptyCache) := by
  rw [evictLoop.eq_def, if_pos hguard, hlru]
  simp only [if_neg hk]

theorem vlru_evictLoop_done (x : VS) (hguard : ¬(x.cap ≤ x.size ∧ x.expires ≠ [])) :
    evictLoop x = (x, none) := by
  rw [evictLoop.eq_def, if_neg hguard]

theorem alKeys_evictLoop_subset (s : VS) :
    alKeys (evictLoop s).1.cache ⊆ alKeys s.cache := by
  induction s using evictLoop.induct with
  | case1 x hguard hlru =>
    rw [evictLoop_empty x hguard hlru]
    exact fun a ha => ha
  | case2 x hguard k v rest hlru hk ih =>
    rw [evictLoop_step x hguard hlru hk]
    intro a ha
    have ha2 := ih ha
    simp only [] at ha2
    rw [alKeys_alErase] at ha2
    exact List.erase_subset _ _ ha2
  | case3 x hguard k v rest hlru hk =>
    rw [evictLoop_stale x hguard hlru hk]
    exact fun a ha => ha
  | case4 x hguard =>
    rw [vlru_evictLoop_done x hguard]
    exact fun a ha => ha

theorem consistent_evictLoop (s : VS) : Consistent s → Consistent (evictLoop s).1 := by
  induction s using evictLoop.induct with
  | case1 x hguard hlru =>
    intro h
    rw [evictLoop_empty x hguard hlru]
    exact h
  | case2 x hguard k v rest hlru hk ih =>
    intro h
    obtain ⟨hsz, hnd, hle, hcap⟩ := h
    rw [evictLoop_step x hguard hlru hk]
    apply ih
    have hlen := length_alErase_of_mem hk
    exact ⟨by simp only []; omega, nodup_alKeys_alErase k hnd, by simp only []; omega, hcap⟩
  | case3 x hguard k v rest hlru hk =>
    intro h
    rw [evictLoop_stale x hguard hlru hk]
    exact h
  | case4 x hguard =>
    intro h
    rw [vlru_evictLoop_done x hguard]
    exact h

theorem setitem_overwrite (s : VS) (k v : Nat) (e : Bool) (hk : k ∈ alKeys s.cache) :
    setitem s k e v =
      ({ s with cache := alSet s.cache k v,
                expires := if e then alSet s.expires k v else s.expires,
                lru := if e then odMoveMRU (alSet s.lru k v) k else s.lru }, none) := by
  cases e <;> simp only [setitem, if_pos hk, Bool.false_eq_true, ite_true, ite_false]

theorem setitem_fresh_err (s : VS) (k v : Nat) (e : Bool) {s' : VS} {err : CErr}
    (hk : k ∉ alKeys s.cache) (hres : evictLoop s = (s', some err)) :
    setitem s k e v = (s', some err) := by
  cases e <;> simp only [setitem, if_neg hk, hres]

theorem setitem_fresh_ok (s : VS) (k v : Nat) (e : Bool) {s' : VS}
    (hk : k ∉ alKeys s.cache) (hres : evictLoop s = (s', none))
    (hsize : s'.size < s'.cap) :
    setitem s k e v =
      ({ s' with cache := s'.cache ++ [(k, v)],
                 expires := if e then alSet s'.expires k v else s'.expires,
                 size := s'.size + 1,
                 lru := if e then odMoveMRU (alSet s'.lru k v) k else s'.lru }, none) := by
  cases e <;> simp only [setitem, if_neg hk, hres, if_pos hsize, Bool.false_eq_true,
    ite_true, ite_false]

theorem setitem_fresh_discard (s : VS) (k v : Nat) (e : Bool) {s' : VS}
    (hk : k ∉ alKeys s.cache) (hres : evictLoop s = (s', none))
    (hsize : ¬s'.size < s'.cap) :
    setitem s k e v =
      (if e then ({ s' with lru := odMoveMRU (alSet s'.lru k v) k }, none)
       else (s', none)) := by
  cases e <;> simp only [setitem, if_neg hk, hres, if_neg hsize, Bool.false_eq_true,
    ite_true, ite_false]

theorem vlru_consistent_setitem (s : VS) (k : Nat) (e : Bool) (v : Nat) (h : Consistent s) :
    Consistent (setitem s k e v).1 := by
  obtain ⟨hsz, hnd, hle, hcap⟩ := h
  by_cases hk : k ∈ alKeys s.cache
  · rw [setitem_overwrite s k v e hk]
    have hlen := length_alSet_of_mem v hk
    have hkeys := alKeys_alSet_of_mem v hk
    exact ⟨by simp only []; omega, by simp only [hkeys]; exact hnd,
      by simp only []; omega, hcap⟩
  · have hloop := consistent_evictLoop s ⟨hsz, hnd, hle, hcap⟩
    have hsub := alKeys_evictLoop_subset s
    rcases hres : evictLoop s with ⟨s', e'⟩
    rw [hres] at hloop hsub
    have hloop2 : Consistent s' := hloop
    have hsub2 : alKeys s'.cache ⊆ alKeys s.cache := hsub
    rcases e' with _ | err
    · by_cases hsize : s'.size < s'.cap
      · rw [setitem_fresh_ok s k v e hk hres hsize]
        obtain ⟨hsz', hnd', hle', hcap'⟩ := hloop2
        have hk' : k ∉ alKeys s'.cache := fun hmem => hk (hsub2 hmem)
        have hnodup' : (alKeys (s'.cache ++ [(k, v)])).Nodup := by
          simp only [alKeys, List.map_append, List.map_cons, List.map_nil]
          rw [List.nodup_append]
          refine ⟨hnd', by simp, ?_⟩
          intro a ha hb
          simp only [List.mem_cons, List.not_mem_nil, or_false] at hb
          subst hb
          exact hk' ha
        exact ⟨by simp only [List.length_append, List.length_cons, List.length_nil]; omega,
          hnodup',
          by simp only [List.length_append, List.length_cons, List.length_nil]; omega, hcap'⟩
      · rw [setitem_fresh_discard s k v e hk hres hsize]
        cases e <;> simp only [Bool.false_eq_true, ite_true, ite_false] <;> exact hloop2
    · rw [setitem_fresh_err s k v e hk hres]
      exact hloop2

theorem vlru_consistent_getitem (s : VS) (k : Nat) (h : Consistent s) :
    Consistent (getitem s k).1 := by
  rcases hg : alGet? s.cache k with _ | v
  · simp only [getitem, hg]
    exact h
  · rcases hw : alGet? s.expires k with _ | w
    · simp only [getitem, hg, hw]
      exact h
    · by_cases hwz : w ≠ 0
      · simp only [getitem, hg, hw, if_pos hwz]
        exact h
      · simp only [getitem, hg, hw, if_neg hwz]
        exact h

theorem vlru_consistent_delitem (s : VS) (k : Nat) (h : Consistent s) :
    Consistent (delitem s k).1 := by
  by_cases hk : k ∈ alKeys s.cache
  · obtain ⟨hsz, hnd, hle, hcap⟩ := h
    have hlen := length_alErase_of_mem hk
    have hbase : Consistent { s with cache := alErase s.cache k,
                                     expires := alErase s.expires k, size := s.size - 1 } :=
      ⟨by simp only []; omega, nodup_alKeys_alErase k hnd, by simp only []; omega, hcap⟩
    rcases hw : alGet? s.lru k with _ | w
    · simp only [delitem, if_pos hk, hw]
      exact hbase
    · by_cases hwz : w ≠ 0
      · simp only [delitem, if_pos hk, hw, if_pos hwz]
        exact hbase
      · simp only [delitem, if_pos hk, hw, if_neg hwz]
        exact hbase
  · rw [delitem, if_neg hk]
    exact h

theorem vlru_consistent_pop (s : VS) (k : Nat) (dflt : Option Nat) (h : Consistent s) :
    Consistent (pop s k dflt).1 := by
  rcases hg : getitem s k with ⟨s1, r⟩
  have h1 : Consistent s1 := by
    have := vlru_consistent_getitem s k h
    rw [hg] at this
    exact this
  rcases r with e | v
  · rcases dflt with _ | d <;> simp only [pop, hg] <;> exact h1
  · have h2 := vlru_consistent_delitem s1 k h1
    rcases hd : delitem s1 k with ⟨s2, r2⟩
    rw [hd] at h2
    rcases r2 with _ | e2
    · simp only [pop, hg, hd]
      exact h2
    · rcases dflt with _ | d <;> simp only [pop, hg, hd] <;> exact h2

theorem vlru_consistent_popitem (s : VS) (h : Consistent s) :
    Consistent (popitem s).1 := by
  obtain ⟨hsz, hnd, hle, hcap⟩ := h
  rcases hl : s.lru with _ | ⟨⟨k, v⟩, rest⟩
  · simp only [popitem, hl]
    exact ⟨hsz, hnd, hle, hcap⟩
  · by_cases hk : k ∈ alKeys s.cache
    · simp only [popitem, hl, if_pos hk]
      have hlen := length_alErase_of_mem hk
      exact ⟨by simp only []; omega, nodup_alKeys_alErase k hnd, by simp only []; omega, hcap⟩
    · simp only [popitem, hl, if_neg hk]
      exact ⟨hsz, hnd, hle, hcap⟩

theorem vlru_consistent_step (s : VS) (op : Op) (h : Consistent s) : Consistent (step s op) := by
  cases op with
  | set k e v => exact vlru_consistent_setitem s k e v h
  | get k => exact vlru_consistent_getitem s k h
  | del k => exact vlru_consistent_delitem s k h
  | pop k d => exact vlru_consistent_pop s k d h
  | popitem => exact vlru_consistent_popitem s h
  | contains _ => exact h
  | len => exact h

theorem vlru_consistent_run (ops : List Op) (s : VS) (h : Consistent s) :
    Consistent (run s ops) := by
  induction ops generalizing s with
  | nil => exact h
  | cons op ops ih => exact ih (step s op) (vlru_consistent_step s op h)

theorem vlru_consistent_fresh {cap : Nat} (hcap : 1 ≤ cap) : Consistent (fresh cap) :=
  ⟨rfl, List.nodup_nil, by simp [fresh], hcap⟩

theorem vlru_card_contains (s : VS) (h : (alKeys s.cache).Nodup) :
    Set.ncard {k | containsKey s k = true} = lenCache s := by
  have hset : {k | containsKey s k = true} = ↑(alKeys s.cache).toFinset := by
    ext a
    simp [containsKey, List.mem_toFinset]
  rw [hset, Set.ncard_coe_Finset, List.toFinset_card_of_nodup h]
  simp [lenCache, alKeys]

end VolatileLRUCache

namespace RCache

theorem cap_evictLoop (s : RS) : (evictLoop s).1.cap = s.cap := by
  rw [evictLoop]

theorem cap_setitem (s : RS) (k v : Nat) : (setitem s k v).1.cap = s.cap := by
  rw [setitem]
  by_cases hk : k ∈ alKeys s.cache
  · rw [if_pos hk]
  · rw [if_neg hk]
    have hcap := cap_evictLoop s
    rcases hres : evictLoop s with ⟨s', e⟩
    rw [hres] at hcap
    rcases e with _ | err <;> simp only [] <;> exact hcap

theorem cap_step (s : RS) (op : Op) : (step s op).cap = s.cap := by
  cases op with
  | set k v => exact cap_setitem s k v
  | get _ => rfl
  | del k =>
    rw [step, delitem]
    by_cases hk : k ∈ alKeys s.cache
    · rw [if_pos hk]
    · rw [if_neg hk]
  | pop k d =>
    rw [step]
    rcases hg : getitem? s k with _ | v
    · rcases d with _ | d' <;> simp only [pop, hg]
    · simp only [pop, hg, delitem]
      by_cases hk : k ∈ alKeys s.cache
      · rw [if_pos hk]
      · rw [if_neg hk]
  | popitem =>
    rw [step]
    rcases hg : s.cache.getLast? with _ | ⟨k, v⟩ <;> simp only [popitem, hg]
  | contains _ => rfl
  | len => rfl

theorem cap_run (ops : List Op) (s : RS) : (run s ops).cap = s.cap := by
  induction ops generalizing s with
  | nil => rfl
  | cons op ops ih => rw [run, List.foldl_cons, ← run, ih, cap_step]

end RCache

namespace VolatileLRUCache

theorem vlru_cap_evictLoop (s : VS) : (evictLoop s).1.cap = s.cap := by
  induction s using evictLoop.induct with
  | case1 x hguard hlru => rw [evictLoop_empty x hguard hlru]
  | case2 x hguard k v rest hlru hk ih =>
    rw [evictLoop_step x hguard hlru hk]
    exact ih
  | case3 x hguard k v rest hlru hk => rw [evictLoop_stale x hguard hlru hk]
  | case4 x hguard => rw [vlru_evictLoop_done x hguard]

theorem vlru_cap_setitem (s : VS) (k : Nat) (e : Bool) (v : Nat) :
    (setitem s k e v).1.cap = s.cap := by
  by_cases hk : k ∈ alKeys s.cache
  · rw [setitem_overwrite s k v e hk]
  · have hcap := vlru_cap_evictLoop s
    rcases hres : evictLoop s with ⟨s', e'⟩
    rw [hres] at hcap
    rcases e' with _ | err
    · by_cases hsize : s'.size < s'.cap
      · rw [setitem_fresh_ok s k v e hk hres hsize]
        exact hcap
      · rw [setitem_fresh_discard s k v e hk hres hsize]
        cases e <;> simp only [Bool.false_eq_true, ite_true, ite_false] <;> exact hcap
    · rw [setitem_fresh_err s k v e hk hres]
      exact hcap

theorem vlru_cap_getitem (s : VS) (k : Nat) : (getitem s k).1.cap = s.cap := by
  rcases hg : alGet? s.cache k with _ | v
  · simp only [getitem, hg]
  · rcases hw : alGet? s.expires k with _ | w
    · simp only [getitem, hg, hw]
    · by_cases hwz : w ≠ 0
      · simp only [getitem, hg, hw, if_pos hwz]
      · simp only [getitem, hg, hw, if_neg hwz]

theorem vlru_cap_delitem (s : VS) (k : Nat) : (delitem s k).1.cap = s.cap := by
  by_cases hk : k ∈ alKeys s.cache
  · rcases hw : alGet? s.lru k with _ | w
    · simp only [delitem, if_pos hk, hw]
    · by_cases hwz : w ≠ 0
      · simp only [delitem, if_pos hk, hw, if_pos hwz]
      · simp only [delitem, if_pos hk, hw, if_neg hwz]
  · rw [delitem, if_neg hk]

theorem vlru_cap_pop (s : VS) (k : Nat) (dflt : Option Nat) : (pop s k dflt).1.cap = s.cap := by
  rcases hg : getitem s k with ⟨s1, r⟩
  have h1 : s1.cap = s.cap := by
    have := vlru_cap_getitem s k
    rw [hg] at this
    exact this
  rcases r with e | v
  · rcases dflt with _ | d <;> simp only [pop, hg] <;> exact h1
  · have h2 := vlru_cap_delitem s1 k
    rcases hd : delitem s1 k with ⟨s2, r2⟩
    rw [hd] at h2
    rcases r2 with _ | e2
    · simp only [pop, hg, hd]
      rw [h2]
      exact h1
    · rcases dflt with _ | d <;> simp only [pop, hg, hd] <;> rw [h2] <;> exact h1

theorem vlru_cap_popitem (s : VS) : (popitem s).1.cap = s.cap := by
  rcases hl : s.lru with _ | ⟨⟨k, v⟩, rest⟩
  · simp only [popitem, hl]
  · by_cases hk : k ∈ alKeys s.cache
    · simp only [popitem, hl, if_pos hk]
    · simp only [popitem, hl, if_neg hk]

theorem vlru_cap_step (s : VS) (op : Op) : (step s op).cap = s.cap := by
  cases op with
  | set k e v => exact vlru_cap_setitem s k e v
  | get k => exact vlru_cap_getitem s k
  | del k => exact vlru_cap_delitem s k
  | pop k d => exact vlru_cap_pop s k d
  | popitem => exact vlru_cap_popitem s
  | contains _ => rfl
  | len => rfl

theorem vlru_cap_run (ops : List Op) (s : VS) : (run s ops).cap = s.cap := by
  induction ops generalizing s with
  | nil => rfl
  | cons op ops ih => rw [run, List.foldl_cons, ← run, ih, vlru_cap_step]

end VolatileLRUCache

/-- C2: for caches of positive capacity, after any finite sequence of public
operations (set/get/delete/pop/pop_item/contains/len) run from a fresh
cache, the cache's length equals the number of keys `k` with `contains k`
true, and the length never exceeds the capacity — stated for the base cache
engine `RCache` (whose `__setitem__`/`__len__` all non-volatile caches
inherit) and for the volatile engine in its `VolatileLRUCache` form. -/
theorem RCache.claim_C2 (cap : Nat) (hcap : 1 ≤ cap) (ops : List Op)
    (vops : List VolatileLRUCache.Op) :
    (Set.ncard {k | containsKey (run (fresh cap) ops) k = true} =
        lenCache (run (fresh cap) ops) ∧
      lenCache (run (fresh cap) ops) ≤ cap) ∧
    (Set.ncard {k | VolatileLRUCache.containsKey
          (VolatileLRUCache.run (VolatileLRUCache.fresh cap) vops) k = true} =
        VolatileLRUCache.lenCache (VolatileLRUCache.run (VolatileLRUCache.fresh cap) vops) ∧
      VolatileLRUCache.lenCache (VolatileLRUCache.run (VolatileLRUCache.fresh cap) vops) ≤ cap) := by
  constructor
  · have hc := consistent_run ops (consistent_fresh hcap)
    have hcapeq : (run (fresh cap) ops).cap = cap := cap_run ops (fresh cap)
    refine ⟨card_contains hc.2.1, ?_⟩
    have := hc.2.2.1
    rw [hcapeq] at this
    exact this
  · have hc := VolatileLRUCache.vlru_consistent_run vops _ (VolatileLRUCache.vlru_consistent_fresh hcap)
    have hcapeq : (VolatileLRUCache.run (VolatileLRUCache.fresh cap) vops).cap = cap :=
      VolatileLRUCache.vlru_cap_run vops (VolatileLRUCache.fresh cap)
    refine ⟨VolatileLRUCache.vlru_card_contains _ hc.2.1, ?_⟩
    have := hc.2.2.1
    rw [hcapeq] at this
    exact this

/-- Witness for `RCache.claim_C2` at capacity 2 and concrete operation
sequences. -/
theorem RCache.claim_C2_witness :
    1 ≤ 2 ∧
    ((Set.ncard {k | containsKey
          (run (fresh 2) [Op.set 1 5, Op.set 2 6, Op.set 3 7, Op.pop 1 (some 0), Op.popitem])
          k = true} =
        lenCache
          (run (fresh 2) [Op.set 1 5, Op.set 2 6, Op.set 3 7, Op.pop 1 (some 0), Op.popitem]) ∧
      lenCache
          (run (fresh 2) [Op.set 1 5, Op.set 2 6, Op.set 3 7, Op.pop 1 (some 0), Op.popitem])
        ≤ 2) ∧
    (Set.ncard {k | VolatileLRUCache.containsKey
          (VolatileLRUCache.run (VolatileLRUCache.fresh 2)
            [VolatileLRUCache.Op.set 1 true 5, VolatileLRUCache.Op.set 2 false 6,
              VolatileLRUCache.Op.popitem, VolatileLRUCache.Op.del 2]) k = true} =
        VolatileLRUCache.lenCache
          (VolatileLRUCache.run (VolatileLRUCache.fresh 2)
            [VolatileLRUCache.Op.set 1 true 5, VolatileLRUCache.Op.set 2 false 6,
              VolatileLRUCache.Op.popitem, VolatileLRUCache.Op.del 2]) ∧
      VolatileLRUCache.lenCache
          (VolatileLRUCache.run (VolatileLRUCache.fresh 2)
            [VolatileLRUCache.Op.set 1 true 5, VolatileLRUCache.Op.set 2 false 6,
              VolatileLRUCache.Op.popitem, VolatileLRUCache.Op.del 2]) ≤ 2)) :=
  ⟨by decide,
    RCache.claim_C2 2 (by decide)
      [Op.set 1 5, Op.set 2 6, Op.set 3 7, Op.pop 1 (some 0), Op.popitem]
      [VolatileLRUCache.Op.set 1 true 5, VolatileLRUCache.Op.set 2 false 6,
        VolatileLRUCache.Op.popitem, VolatileLRUCache.Op.del 2]⟩

/-! ## Unfolding lemmas for the well-founded loops (used to evaluate
concrete runs, since `WellFounded.fix` does not reduce in the kernel) -/

namespace VolatileLFUCache

theorem vlfu_evictLoop_done (x : VF) (hguard : ¬(x.cap ≤ x.size ∧ x.expires ≠ [])) :
    evictLoop x = (x, none) := by
  rw [evictLoop.eq_def, if_neg hguard]

theorem evictLoop_popleft_none (x : VF) (hguard : x.cap ≤ x.size ∧ x.expires ≠ [])
    (hpop : LFULinkedList.popleft? x.chain = none) :
    evictLoop x = (x, some .emptyCache) := by
  rw [evictLoop.eq_def, if_pos hguard, hpop]

end VolatileLFUCache

namespace TTLCache

theorem sweep_nil (x : TS) (n : Nat) (hlinks : x.links = []) : sweep x n = (x, none) := by
  rw [sweep.eq_def, hlinks]

theorem sweep_stop (x : TS) (n : Nat) {k e : Nat} {rest : List (Nat × Nat)}
    (hlinks : x.links = (k, e) :: rest) (hn : ¬e ≤ n) : sweep x n = (x, none) := by
  rw [sweep.eq_def, hlinks]
  simp only [if_neg hn]

theorem sweep_expire_step (x : TS) (n : Nat) {k e : Nat} {rest : List (Nat × Nat)}
    (hlinks : x.links = (k, e) :: rest) (hn : e ≤ n) (hc : k ∈ alKeys x.cache)
    (hl : k ∈ alKeys x.lru) :
    sweep x n = sweep { x with cache := alErase x.cache k, size := x.size - 1,
                               lru := alErase x.lru k, links := rest } n := by
  rw [sweep.eq_def, hlinks]
  simp only [if_pos hn, if_pos hc, if_pos hl]

theorem ttl_evictLoop_done (x : TS) (hsize : x.size < x.cap) : evictLoop x = (x, none) := by
  rw [evictLoop.eq_def, if_pos hsize]

end TTLCache

/-- C3 (code bug): in the volatile LFU cache, an overwrite that flips a
key's `expires` flag from true to false removes the key from the frequency
chain but leaves its stale entry in `_expires_map`
(`VolatileCache.__setitem__` only ever adds to `_expires_map`).  A later
`set` of a new key at capacity then enters the admission loop (the stale
`_expires_map` is non-empty), and `popleft` on the now key-less chain raises
`KeyError("cannot pop from empty cache.")`, which escapes to the caller
instead of the write being silently discarded: with capacity 1, after
`set(1, expires=True)`, `set(1, expires=False)`, the call
`set(2, expires=True)` raises and key 2 is not inserted. -/
theorem VolatileLFUCache.claim_C3_code_bug :
    (VolatileLFUCache.setitem
      (VolatileLFUCache.setitem
        (VolatileLFUCache.setitem (VolatileLFUCache.fresh 1) 1 true 10).1
        1 false 20).1
      2 true 5).2 = some CErr.emptyCache ∧
    (VolatileLFUCache.setitem
      (VolatileLFUCache.setitem
        (VolatileLFUCache.setitem (VolatileLFUCache.fresh 1) 1 true 10).1
        1 false 20).1
      2 true 5).1.cache = [(1, 20)] ∧
    (VolatileLFUCache.setitem
      (VolatileLFUCache.setitem
        (VolatileLFUCache.setitem (VolatileLFUCache.fresh 1) 1 true 10).1
        1 false 20).1
      2 true 5).1.expires = [(1, 10)] := by
  have hL0 : VolatileLFUCache.evictLoop (VolatileLFUCache.fresh 1) =
      (VolatileLFUCache.fresh 1, none) :=
    VolatileLFUCache.vlfu_evictLoop_done _ (by decide)
  have h1 : VolatileLFUCache.setitem (VolatileLFUCache.fresh 1) 1 true 10 =
      (⟨[(1, 10)], 1, 1, [(1, 10)], [(1, [1])], []⟩, none) := by
    simp only [VolatileLFUCache.setitem, hL0]
    decide
  have h2 : VolatileLFUCache.setitem
      (⟨[(1, 10)], 1, 1, [(1, 10)], [(1, [1])], []⟩ : VolatileLFUCache.VF) 1 false 20 =
      (⟨[(1, 20)], 1, 1, [(1, 10)], [(1, [])], []⟩, none) := by
    decide
  have hL2 : VolatileLFUCache.evictLoop
      (⟨[(1, 20)], 1, 1, [(1, 10)], [(1, [])], []⟩ : VolatileLFUCache.VF) =
      (⟨[(1, 20)], 1, 1, [(1, 10)], [(1, [])], []⟩, some CErr.emptyCache) :=
    VolatileLFUCache.evictLoop_popleft_none _ (by decide) (by decide)
  have h3 : VolatileLFUCache.setitem
      (⟨[(1, 20)], 1, 1, [(1, 10)], [(1, [])], []⟩ : VolatileLFUCache.VF) 2 true 5 =
      (⟨[(1, 20)], 1, 1, [(1, 10)], [(1, [])], []⟩, some CErr.emptyCache) := by
    simp only [VolatileLFUCache.setitem, hL2]
    decide
  rw [h1, h2, h3]
  decide

/-- C7 (code bug): the TTL cache's `expire` sweep is bound to
`time.monotonic` at class-definition time (`@expire(_time=time.monotonic)`),
not to the injected `self._time`; the injected clock is only used to stamp
expiry times on `set`.  With `ttl = 2` and the injected clock at 0,
`set(1, 2)` stamps expiry 2; a `get(1)`/`contains(1)` performed after the
injected clock has advanced by 2 (`get` and `contains` do not even consult
the injected clock) still returns `2` / `true` as long as the module clock
(`realNow = 1`) has not passed the stamp — while the same state read at
`realNow = 3` returns the default — so expiry is decided by the module-level
clock, not the injected one. -/
theorem TTLCache.claim_C7_code_bug :
    (TTLCache.setitem (TTLCache.fresh 2 2) 1 2 0 1).2 = none ∧
    (TTLCache.get (TTLCache.setitem (TTLCache.fresh 2 2) 1 2 0 1).1 1 none 1).2 =
      Except.ok (some 2) ∧
    (TTLCache.containsKey (TTLCache.setitem (TTLCache.fresh 2 2) 1 2 0 1).1 1 1).2 =
      Except.ok true ∧
    (TTLCache.get (TTLCache.setitem (TTLCache.fresh 2 2) 1 2 0 1).1 1 none 3).2 =
      Except.ok none ∧
    (TTLCache.containsKey (TTLCache.setitem (TTLCache.fresh 2 2) 1 2 0 1).1 1 3).2 =
      Except.ok false := by
  have hs0 : TTLCache.sweep (TTLCache.fresh 2 2) 1 = (TTLCache.fresh 2 2, none) :=
    TTLCache.sweep_nil _ 1 rfl
  have hL0 : TTLCache.evictLoop (TTLCache.fresh 2 2) = (TTLCache.fresh 2 2, none) :=
    TTLCache.ttl_evictLoop_done _ (by decide)
  have h1 : TTLCache.setitem (TTLCache.fresh 2 2) 1 2 0 1 =
      (⟨[(1, 2)], 1, 2, [(1, 2)], [(1, 2)], 2, []⟩, none) := by
    simp only [TTLCache.setitem, hs0, hL0]
    decide
  have hs1 : TTLCache.sweep (⟨[(1, 2)], 1, 2, [(1, 2)], [(1, 2)], 2, []⟩ : TTLCache.TS) 1 =
      (⟨[(1, 2)], 1, 2, [(1, 2)], [(1, 2)], 2, []⟩, none) :=
    TTLCache.sweep_stop _ 1 rfl (by decide)
  have hs3 : TTLCache.sweep (⟨[(1, 2)], 1, 2, [(1, 2)], [(1, 2)], 2, []⟩ : TTLCache.TS) 3 =
      (⟨[], 0, 2, [], [], 2, []⟩, none) := by
    rw [TTLCache.sweep_expire_step _ 3 rfl (by decide) (by decide) (by decide)]
    exact TTLCache.sweep_nil _ 3 rfl
  rw [h1]
  refine ⟨rfl, ?_, ?_, ?_, ?_⟩
  · simp only [TTLCache.get, TTLCache.getitem, hs1]
    decide
  · simp only [TTLCache.containsKey, hs1]
    decide
  · simp only [TTLCache.get, TTLCache.getitem, hs3]
    decide
  · simp only [TTLCache.containsKey, hs3]
    decide

/-- C8 (code bug): `VolatileLRUCache.__delitem__` on a persistent key first
runs `VolatileCache.__delitem__` (removing the key from the map and
decrementing `__size`) and then evaluates `self._lru[_key]`, which raises
`KeyError` because a persistent key is not in `_lru` — so the failed delete
leaves the cache mutated: after `set(1, expires=False)` with value 10 in a
capacity-2 cache, `delete(1)` raises while key 1 is gone from the map. -/
theorem VolatileLRUCache.claim_C8_code_bug :
    (VolatileLRUCache.delitem
      (VolatileLRUCache.setitem (VolatileLRUCache.fresh 2) 1 false 10).1 1).2 =
      some CErr.keyNotFound ∧
    1 ∈ alKeys (VolatileLRUCache.setitem (VolatileLRUCache.fresh 2) 1 false 10).1.cache ∧
    1 ∉ alKeys (VolatileLRUCache.delitem
      (VolatileLRUCache.setitem (VolatileLRUCache.fresh 2) 1 false 10).1 1).1.cache ∧
    (VolatileLRUCache.delitem
        (VolatileLRUCache.setitem (VolatileLRUCache.fresh 2) 1 false 10).1 1).1 ≠
      (VolatileLRUCache.setitem (VolatileLRUCache.fresh 2) 1 false 10).1 := by
  have hres0 : VolatileLRUCache.evictLoop (VolatileLRUCache.fresh 2) =
      (VolatileLRUCache.fresh 2, none) :=
    VolatileLRUCache.vlru_evictLoop_done _ (by decide)
  have h1 : VolatileLRUCache.setitem (VolatileLRUCache.fresh 2) 1 false 10 =
      (⟨[(1, 10)], 1, 2, [], [], []⟩, none) := by
    rw [VolatileLRUCache.setitem_fresh_ok _ 1 10 false (by decide) hres0 (by decide)]
    decide
  rw [h1]
  decide

/-- C10 (code bug): `VolatileLRUCache.__delitem__` removes an expiring key
from the map but leaves it in the `_lru` recency ledger whenever the key's
stored value is falsy, because `if self._lru[_key]: del self._lru[_key]`
tests the value's truthiness instead of membership: after
`set(1, expires=True)` with value 0, `delete(1)` succeeds, key 1 is gone
from the map and from `_expires_map`, yet it is still in `_lru` — and the
eviction callback is never invoked by the delete (the callback log stays
empty). -/
theorem VolatileLRUCache.claim_C10_code_bug :
    (VolatileLRUCache.delitem
      (VolatileLRUCache.setitem (VolatileLRUCache.fresh 2) 1 true 0).1 1).2 = none ∧
    1 ∉ alKeys (VolatileLRUCache.delitem
      (VolatileLRUCache.setitem (VolatileLRUCache.fresh 2) 1 true 0).1 1).1.cache ∧
    1 ∉ alKeys (VolatileLRUCache.delitem
      (VolatileLRUCache.setitem (VolatileLRUCache.fresh 2) 1 true 0).1 1).1.expires ∧
    1 ∈ alKeys (VolatileLRUCache.delitem
      (VolatileLRUCache.setitem (VolatileLRUCache.fresh 2) 1 true 0).1 1).1.lru ∧
    (VolatileLRUCache.delitem
      (VolatileLRUCache.setitem (VolatileLRUCache.fresh 2) 1 true 0).1 1).1.cbLog = [] := by
  have hres0 : VolatileLRUCache.evictLoop (VolatileLRUCache.fresh 2) =
      (VolatileLRUCache.fresh 2, none) :=
    VolatileLRUCache.vlru_evictLoop_done _ (by decide)
  have h1 : VolatileLRUCache.setitem (VolatileLRUCache.fresh 2) 1 true 0 =
      (⟨[(1, 0)], 1, 2, [(1, 0)], [(1, 0)], []⟩, none) := by
    rw [VolatileLRUCache.setitem_fresh_ok _ 1 0 true (by decide) hres0 (by decide)]
    decide
  rw [h1]
  decide

/-- C4 counterexample: taking the claim's `persists` flag at the spec's own
meaning (a non-persistent key is evictable; `persists = not expires`), the
scenario evicts key 1: in a capacity-2 volatile LRU cache,
`set(1, 2, persists=False)` followed by filling to capacity with the
persistent `set(2, 3, persists=True)`, a forced eviction (`popitem`)
removes exactly key 1. -/
theorem VolatileLRUCache.claim_C4_counterexample :
    (VolatileLRUCache.popitem
      (VolatileLRUCache.setPersists
        (VolatileLRUCache.setPersists (VolatileLRUCache.fresh 2) 1 false 2).1
        2 true 3).1).2 = Except.ok (1, 2) ∧
    1 ∉ alKeys (VolatileLRUCache.popitem
      (VolatileLRUCache.setPersists
        (VolatileLRUCache.setPersists (VolatileLRUCache.fresh 2) 1 false 2).1
        2 true 3).1).1.cache := by
  have hres0 : VolatileLRUCache.evictLoop (VolatileLRUCache.fresh 2) =
      (VolatileLRUCache.fresh 2, none) :=
    VolatileLRUCache.vlru_evictLoop_done _ (by decide)
  have h1 : VolatileLRUCache.setPersists (VolatileLRUCache.fresh 2) 1 false 2 =
      (⟨[(1, 2)], 1, 2, [(1, 2)], [(1, 2)], []⟩, none) := by
    rw [VolatileLRUCache.setPersists,
      VolatileLRUCache.setitem_fresh_ok _ 1 2 (!false) (by decide) hres0 (by decide)]
    decide
  have hres1 : VolatileLRUCache.evictLoop
      (⟨[(1, 2)], 1, 2, [(1, 2)], [(1, 2)], []⟩ : VolatileLRUCache.VS) =
      (⟨[(1, 2)], 1, 2, [(1, 2)], [(1, 2)], []⟩, none) :=
    VolatileLRUCache.vlru_evictLoop_done _ (by decide)
  have h2 : VolatileLRUCache.setPersists
      (⟨[(1, 2)], 1, 2, [(1, 2)], [(1, 2)], []⟩ : VolatileLRUCache.VS) 2 true 3 =
      (⟨[(1, 2), (2, 3)], 2, 2, [(1, 2)], [(1, 2)], []⟩, none) := by
    rw [VolatileLRUCache.setPersists,
      VolatileLRUCache.setitem_fresh_ok _ 2 3 (!true) (by decide) hres1 (by decide)]
    decide
  rw [h1, h2]
  decide

/-- C6 counterexample: after `insert(1)` followed by `increment(1)` on an
empty chain — the chain produced by `LFUCache`'s `set(1, v)` then `get(1)` —
the frequency-1 bucket has been emptied but remains linked: the chain is
`[(1, []), (2, [1])]`, whose first bucket is empty and is not the sentinel
head (the sentinel of frequency 0 sits before the modelled chain). -/
theorem LFULinkedList.claim_C6_counterexample :
    LFULinkedList.increment (LFULinkedList.insert [] 1) 1 = [(1, []), (2, [1])] ∧
    LFULinkedList.Reach [(1, []), (2, [1])] ∧
    (1, ([] : List Nat)) ∈ ([(1, []), (2, [1])] : LFULinkedList.Chain) ∧
    ((1, ([] : List Nat)) : LFULinkedList.Bucket).2 = [] := by
  refine ⟨by decide, ?_, by decide, rfl⟩
  have h1 : LFULinkedList.Reach (LFULinkedList.insert [] 1) :=
    LFULinkedList.Reach.insert LFULinkedList.Reach.nil (by decide)
  have h2 : LFULinkedList.Reach
      (LFULinkedList.increment (LFULinkedList.insert [] 1) 1) :=
    LFULinkedList.Reach.increment h1 (by decide)
  simpa using h2

/-! ## C4: persistent keys survive eviction (with the code's flag polarity) -/

namespace VolatileLRUCache

/-- A key in the map but not in the `_lru` ledger survives `popitem` and
stays off the ledger. -/
theorem persist_popitem (s : VS) (k0 : Nat) (h1 : k0 ∈ alKeys s.cache)
    (h2 : k0 ∉ alKeys s.lru) :
    k0 ∈ alKeys (popitem s).1.cache ∧ k0 ∉ alKeys (popitem s).1.lru := by
  rcases hl : s.lru with _ | ⟨⟨k, v⟩, rest⟩
  · rw [hl] at h2
    simp only [popitem, hl]
    exact ⟨h1, h2⟩
  · have hk0 : k0 ≠ k := by
      rintro rfl
      apply h2
      rw [hl]
      simp [alKeys]
    have hrest : k0 ∉ alKeys rest := by
      intro hm
      apply h2
      rw [hl]
      simp only [alKeys, List.map_cons, List.mem_cons]
      exact Or.inr hm
    by_cases hk : k ∈ alKeys s.cache
    · simp only [popitem, hl, if_pos hk]
      exact ⟨(mem_alKeys_alErase_of_ne hk0).mpr h1, hrest⟩
    · simp only [popitem, hl, if_neg hk]
      exact ⟨h1, hrest⟩

/-- A key in the map but not in the `_lru` ledger survives the whole
admission loop. -/
theorem persist_evictLoop (s : VS) (k0 : Nat) :
    k0 ∈ alKeys s.cache → k0 ∉ alKeys s.lru →
    k0 ∈ alKeys (evictLoop s).1.cache ∧ k0 ∉ alKeys (evictLoop s).1.lru := by
  induction s using evictLoop.induct with
  | case1 x hguard hlru =>
    intro h1 h2
    rw [evictLoop_empty x hguard hlru]
    exact ⟨h1, h2⟩
  | case2 x hguard k v rest hlru hk ih =>
    intro h1 h2
    rw [evictLoop_step x hguard hlru hk]
    have hk0 : k0 ≠ k := by
      rintro rfl
      apply h2
      rw [hlru]
      simp [alKeys]
    have hrest : k0 ∉ alKeys rest := by
      intro hm
      apply h2
      rw [hlru]
      simp only [alKeys, List.map_cons, List.mem_cons]
      exact Or.inr hm
    exact ih ((mem_alKeys_alErase_of_ne hk0).mpr h1) hrest
  | case3 x hguard k v rest hlru hk =>
    intro h1 h2
    rw [evictLoop_stale x hguard hlru hk]
    refine ⟨h1, ?_⟩
    intro hm
    apply h2
    rw [hlru]
    simp only [alKeys, List.map_cons, List.mem_cons]
    exact Or.inr hm
  | case4 x hguard =>
    intro h1 h2
    rw [vlru_evictLoop_done x hguard]
    exact ⟨h1, h2⟩

/-- A key in the map but not in the `_lru` ledger survives any `set` of a
different key, with either flag. -/
theorem persist_setitem (s : VS) (k0 k : Nat) (e : Bool) (v : Nat) (hne : k ≠ k0)
    (h1 : k0 ∈ alKeys s.cache) (h2 : k0 ∉ alKeys s.lru) :
    k0 ∈ alKeys (setitem s k e v).1.cache ∧ k0 ∉ alKeys (setitem s k e v).1.lru := by
  have hlru_upd : ∀ (m : List (Nat × Nat)), k0 ∉ alKeys m →
      k0 ∉ alKeys (odMoveMRU (alSet m k v) k) := by
    intro m hm hmem
    have := alKeys_odMoveMRU_subset (alSet m k v) k hmem
    have := alKeys_alSet_subset m k v this
    rcases List.mem_cons.mp this with hc | hc
    · exact hne hc.symm
    · exact hm hc
  by_cases hk : k ∈ alKeys s.cache
  · rw [setitem_overwrite s k v e hk]
    refine ⟨by rw [alKeys_alSet_of_mem v hk]; exact h1, ?_⟩
    cases e
    · simpa using h2
    · simpa using hlru_upd s.lru h2
  · have hloop := persist_evictLoop s k0 h1 h2
    rcases hres : evictLoop s with ⟨s', e'⟩
    rw [hres] at hloop
    have hl1 : k0 ∈ alKeys s'.cache := hloop.1
    have hl2 : k0 ∉ alKeys s'.lru := hloop.2
    rcases e' with _ | err
    · by_cases hsize : s'.size < s'.cap
      · rw [setitem_fresh_ok s k v e hk hres hsize]
        refine ⟨?_, ?_⟩
        · simp only [alKeys, List.map_append, List.mem_append]
          exact Or.inl hl1
        · cases e
          · simpa using hl2
          · simpa using hlru_upd s'.lru hl2
      · rw [setitem_fresh_discard s k v e hk hres hsize]
        cases e
        · simpa using ⟨hl1, hl2⟩
        · simpa using ⟨hl1, hlru_upd s'.lru hl2⟩
    · rw [setitem_fresh_err s k v e hk hres]
      exact ⟨hl1, hl2⟩

/-- A key in the map but not in the `_lru` ledger survives any sequence of
expiring inserts of other keys. -/
theorem persist_setAllExpiring (ks : List Nat) (k0 : Nat) (val : Nat → Nat) :
    ∀ (s : VS), (∀ j ∈ ks, j ≠ k0) → k0 ∈ alKeys s.cache → k0 ∉ alKeys s.lru →
    k0 ∈ alKeys (setAllExpiring s ks val).cache ∧
      k0 ∉ alKeys (setAllExpiring s ks val).lru := by
  induction ks with
  | nil =>
    intro s _ h1 h2
    exact ⟨h1, h2⟩
  | cons k ks ih =>
    intro s hne h1 h2
    have hstep : setAllExpiring s (k :: ks) val =
        setAllExpiring (setitem s k true (val k)).1 ks val := by
      simp [setAllExpiring]
    rw [hstep]
    have h' := persist_setitem s k0 k true (val k) (hne k (List.mem_cons_self _ _)) h1 h2
    exact ih _ (fun j hj => hne j (List.mem_cons_of_mem _ hj)) h'.1 h'.2

/-- C4 (amended: the claim's flag read with the code's polarity — the
boolean on `set` is the `expires` flag, so a persistent key is one set with
the flag `False`): after `set(1, v0)` with `expires = False` into a fresh
volatile LRU cache of positive capacity, followed by any number of
`expires = True` inserts of other keys, key 1 is still present, a forced
eviction (`popitem`) never removes it, and neither does a further `set` of
another key (which may trigger capacity eviction). -/
theorem claim_C4 (cap : Nat) (hcap : 1 ≤ cap) (v0 : Nat)
    (ks : List Nat) (hks : ∀ j ∈ ks, j ≠ 1) (val : Nat → Nat)
    (k' : Nat) (e' : Bool) (v' : Nat) (hk' : k' ≠ 1) :
    1 ∈ alKeys (setAllExpiring (setitem (fresh cap) 1 false v0).1 ks val).cache ∧
    1 ∈ alKeys (popitem
      (setAllExpiring (setitem (fresh cap) 1 false v0).1 ks val)).1.cache ∧
    1 ∈ alKeys (setitem
      (setAllExpiring (setitem (fresh cap) 1 false v0).1 ks val) k' e' v').1.cache := by
  have hres0 : evictLoop (fresh cap) = (fresh cap, none) := by
    apply vlru_evictLoop_done
    intro hg
    exact hg.2 rfl
  have hinv : 1 ∈ alKeys (setitem (fresh cap) 1 false v0).1.cache ∧
      1 ∉ alKeys (setitem (fresh cap) 1 false v0).1.lru := by
    rw [setitem_fresh_ok (fresh cap) 1 v0 false (by simp [fresh, alKeys]) hres0
      (by simp [fresh]; omega)]
    constructor
    · simp [fresh, alKeys]
    · simp [fresh, alKeys]
  have hall := persist_setAllExpiring ks 1 val (setitem (fresh cap) 1 false v0).1
    hks hinv.1 hinv.2
  refine ⟨hall.1, ?_, ?_⟩
  · exact (persist_popitem _ 1 hall.1 hall.2).1
  · exact (persist_setitem _ 1 k' e' v' hk' hall.1 hall.2).1

/-- Witness for `VolatileLRUCache.claim_C4` at capacity 2, fillers `[2, 3]`,
and a further insert of key 4. -/
theorem claim_C4_witness :
    1 ≤ 2 ∧ (∀ j ∈ ([2, 3] : List Nat), j ≠ 1) ∧ (4 : Nat) ≠ 1 ∧
    (1 ∈ alKeys (setAllExpiring (setitem (fresh 2) 1 false 7).1 [2, 3]
        (fun j => j + 1)).cache ∧
      1 ∈ alKeys (popitem
        (setAllExpiring (setitem (fresh 2) 1 false 7).1 [2, 3] (fun j => j + 1))).1.cache ∧
      1 ∈ alKeys (setitem
        (setAllExpiring (setitem (fresh 2) 1 false 7).1 [2, 3] (fun j => j + 1))
        4 true 9).1.cache) :=
  ⟨by decide, by decide, by decide,
    VolatileLRUCache.claim_C4 2 (by decide) 7 [2, 3] (by decide) (fun j => j + 1)
      4 true 9 (by decide)⟩

end VolatileLRUCache

/-! ## C5: LRU ordering -/

namespace LRUCache

theorem lruq_evictLoop_done (s : LS) (hsize : s.size < s.cap) : evictLoop s = (s, none) := by
  rw [evictLoop.eq_def, if_pos hsize]

/-- `LRUCache.__setitem__` of a fresh key below capacity: no eviction, the
key is appended to the map and to the most-recently-used end of `_lru`. -/
theorem setitem_fresh_nocap (s : LS) (k v : Nat) (hk : k ∉ alKeys s.cache)
    (hsize : s.size < s.cap) :
    setitem s k v =
      ({ s with cache := s.cache ++ [(k, v)], size := s.size + 1,
                lru := odMoveMRU (alSet s.lru k v) k }, none) := by
  simp only [setitem, if_neg hk, lruq_evictLoop_done s hsize]

theorem setAll_acc (val : Nat → Nat) (ks : List Nat) :
    ∀ (m log : List (Nat × Nat)) (cap : Nat), ks.Nodup →
      (∀ j ∈ ks, j ∉ alKeys m) → m.length + ks.length ≤ cap →
      setAll ⟨m, m.length, cap, m, log⟩ ks val =
        ⟨m ++ ks.map (fun k => (k, val k)), m.length + ks.length, cap,
          m ++ ks.map (fun k => (k, val k)), log⟩ := by
  induction ks with
  | nil =>
    intro m log cap _ _ _
    simp [setAll]
  | cons k ks ih =>
    intro m log cap hnd hfresh hlen
    have hk : k ∉ alKeys m := hfresh k (List.mem_cons_self _ _)
    have hstep : setAll ⟨m, m.length, cap, m, log⟩ (k :: ks) val =
        setAll (setitem ⟨m, m.length, cap, m, log⟩ k (val k)).1 ks val := by
      simp [setAll]
    have hset : setitem ⟨m, m.length, cap, m, log⟩ k (val k) =
        (⟨m ++ [(k, val k)], m.length + 1, cap, m ++ [(k, val k)], log⟩, none) := by
      rw [setitem_fresh_nocap _ k (val k) hk
        (by show m.length < cap; simp only [List.length_cons] at hlen; omega)]
      simp only [alSet_of_not_mem (val k) hk, odMoveMRU_append_fresh (val k) hk]
    have hfresh' : ∀ j ∈ ks, j ∉ alKeys (m ++ [(k, val k)]) := by
      intro j hj hmem
      simp only [alKeys, List.map_append, List.mem_append, List.map_cons, List.map_nil,
        List.mem_cons, List.not_mem_nil, or_false] at hmem
      rcases hmem with hm | hm
      · exact hfresh j (List.mem_cons_of_mem _ hj) hm
      · subst hm
        exact (List.nodup_cons.mp hnd).1 hj
    have hlen' : (m ++ [(k, val k)]).length + ks.length ≤ cap := by
      simp only [List.length_append, List.length_cons, List.length_nil]
      simp only [List.length_cons] at hlen
      omega
    rw [hstep, hset]
    have hkey := ih (m ++ [(k, val k)]) log cap (List.nodup_cons.mp hnd).2 hfresh' hlen'
    rw [show m.length + 1 = (m ++ [(k, val k)]).length by simp] at *
    rw [hkey]
    simp [List.append_assoc]
    omega

/-- Inserting distinct keys within capacity into a fresh LRU cache yields a
map and ledger listing the keys in insertion order (ledger head = least
recently used). -/
theorem setAll_fresh (cap : Nat) (ks : List Nat) (val : Nat → Nat) (hnd : ks.Nodup)
    (hlen : ks.length ≤ cap) :
    setAll (fresh cap) ks val =
      ⟨ks.map (fun k => (k, val k)), ks.length, cap, ks.map (fun k => (k, val k)), []⟩ := by
  have := setAll_acc val ks [] [] cap hnd (by intro j _ hj; simp [alKeys] at hj)
    (by simpa using hlen)
  simpa [fresh] using this

theorem alGet?_head (k v : Nat) (t : List (Nat × Nat)) : alGet? ((k, v) :: t) k = some v := by
  simp [alGet?, List.find?]

end LRUCache

/-- C5: for the LRU cache, (i) `get` of a live key returns its stored value
unchanged (the map is untouched) and moves the key to the most-recently-used
end of the recency ledger; (ii) the eviction victim is always the key at
the least-recently-used end of the ledger; and (iii) after inserting the
distinct keys `1..n` (`2 ≤ n ≤ capacity`) in order into a fresh cache and
then reading key 1, the next eviction removes exactly key 2. -/
theorem LRUCache.claim_C5 (s : LS) (k w : Nat) (hw : alGet? s.cache k = some w)
    (u : Nat) (hu : alGet? s.lru k = some u)
    (t : LS) (kv : Nat × Nat) (trest : List (Nat × Nat)) (ht : t.lru = kv :: trest)
    (htc : kv.1 ∈ alKeys t.cache)
    (cap n : Nat) (val : Nat → Nat) (hn2 : 2 ≤ n) (hncap : n ≤ cap) :
    ((getitem s k).2 = Except.ok w ∧
      (getitem s k).1.cache = s.cache ∧
      (getitem s k).1.lru = alErase s.lru k ++ [(k, u)]) ∧
    ((popitem t).2 = Except.ok kv ∧
      (popitem t).1.cache = alErase t.cache kv.1 ∧
      (popitem t).1.lru = trest) ∧
    ((popitem (getitem (setAll (fresh cap) (List.range' 1 n) val) 1).1).2 =
        Except.ok (2, val 2) ∧
      2 ∉ alKeys (popitem (getitem (setAll (fresh cap) (List.range' 1 n) val) 1).1).1.cache) := by
  refine ⟨?_, ?_, ?_⟩
  · refine ⟨?_, ?_, ?_⟩
    · simp only [getitem, hw]
    · simp only [getitem, hw]
    · simp only [getitem, hw, odMoveMRU, hu]
  · obtain ⟨kk, vv⟩ := kv
    refine ⟨?_, ?_, ?_⟩
    · simp only [popitem, ht, if_pos htc]
    · simp only [popitem, ht, if_pos htc]
    · simp only [popitem, ht, if_pos htc]
  · have hnd : (List.range' 1 n).Nodup := List.nodup_range' 1 n
    have hset := setAll_fresh cap (List.range' 1 n) val hnd (by simpa using hncap)
    obtain ⟨n2, rfl⟩ : ∃ n2, n = n2 + 2 := ⟨n - 2, by omega⟩
    have hr : List.range' 1 (n2 + 2) = 1 :: 2 :: List.range' 3 n2 := by
      rw [List.range'_succ]
      rw [show (n2 + 1) = n2 + 1 from rfl, List.range'_succ]
    have hglru : (getitem (setAll (fresh cap) (List.range' 1 (n2 + 2)) val) 1).1 =
        ⟨(1, val 1) :: (2, val 2) :: (List.range' 3 n2).map (fun k => (k, val k)),
          n2 + 2, cap,
          ((2, val 2) :: (List.range' 3 n2).map (fun k => (k, val k))) ++ [(1, val 1)],
          []⟩ := by
      rw [hset, hr]
      simp only [List.map_cons, getitem, alGet?_head, odMoveMRU]
      simp [alErase]
    rw [hglru]
    have h2mem : 2 ∈ alKeys ((1, val 1) :: (2, val 2) ::
        (List.range' 3 n2).map (fun k => (k, val k))) := by
      simp [alKeys]
    have h2notin : (2 : Nat) ∉ alKeys ((1, val 1) ::
        (List.range' 3 n2).map (fun k => (k, val k))) := by
      simp only [alKeys, List.map_cons, List.mem_cons]
      intro hmem
      rcases hmem with h | h
      · cases h
      · have hcomp : List.map Prod.fst
            (List.map (fun j => (j, val j)) (List.range' 3 n2)) = List.range' 3 n2 := by
          rw [List.map_map]
          exact List.map_id _
        rw [hcomp] at h
        rcases List.mem_range'.mp h with ⟨i, hi, hieq⟩
        omega
    have herase2 : alErase ((1, val 1) :: (2, val 2) ::
        (List.range' 3 n2).map (fun k => (k, val k))) 2 =
        (1, val 1) :: (List.range' 3 n2).map (fun k => (k, val k)) := by
      simp [alErase]
    refine ⟨?_, ?_⟩
    · simp only [popitem, List.cons_append, if_pos h2mem]
    · simp only [popitem, List.cons_append, if_pos h2mem, herase2]
      exact h2notin

/-- Witness for `LRUCache.claim_C5` at concrete states and `n = 3`,
capacity 6. -/
theorem LRUCache.claim_C5_witness :
    alGet? (⟨[(5, 9), (6, 8)], 2, 4, [(6, 8), (5, 9)], []⟩ : LRUCache.LS).cache 5 = some 9 ∧
    alGet? (⟨[(5, 9), (6, 8)], 2, 4, [(6, 8), (5, 9)], []⟩ : LRUCache.LS).lru 5 = some 9 ∧
    (⟨[(7, 1)], 1, 4, [(7, 1)], []⟩ : LRUCache.LS).lru = (7, 1) :: [] ∧
    ((7, 1) : Nat × Nat).1 ∈ alKeys (⟨[(7, 1)], 1, 4, [(7, 1)], []⟩ : LRUCache.LS).cache ∧
    2 ≤ 3 ∧ 3 ≤ 6 ∧
    (((LRUCache.getitem (⟨[(5, 9), (6, 8)], 2, 4, [(6, 8), (5, 9)], []⟩ : LRUCache.LS) 5).2 =
        Except.ok 9 ∧
      (LRUCache.getitem (⟨[(5, 9), (6, 8)], 2, 4, [(6, 8), (5, 9)], []⟩ : LRUCache.LS) 5).1.cache =
        (⟨[(5, 9), (6, 8)], 2, 4, [(6, 8), (5, 9)], []⟩ : LRUCache.LS).cache ∧
      (LRUCache.getitem (⟨[(5, 9), (6, 8)], 2, 4, [(6, 8), (5, 9)], []⟩ : LRUCache.LS) 5).1.lru =
        alErase (⟨[(5, 9), (6, 8)], 2, 4, [(6, 8), (5, 9)], []⟩ : LRUCache.LS).lru 5 ++ [(5, 9)]) ∧
    ((LRUCache.popitem (⟨[(7, 1)], 1, 4, [(7, 1)], []⟩ : LRUCache.LS)).2 =
        Except.ok (7, 1) ∧
      (LRUCache.popitem (⟨[(7, 1)], 1, 4, [(7, 1)], []⟩ : LRUCache.LS)).1.cache =
        alErase (⟨[(7, 1)], 1, 4, [(7, 1)], []⟩ : LRUCache.LS).cache ((7, 1) : Nat × Nat).1 ∧
      (LRUCache.popitem (⟨[(7, 1)], 1, 4, [(7, 1)], []⟩ : LRUCache.LS)).1.lru = []) ∧
    ((LRUCache.popitem (LRUCache.getitem
          (LRUCache.setAll (LRUCache.fresh 6) (List.range' 1 3) (fun j => j + 10)) 1).1).2 =
        Except.ok (2, 2 + 10) ∧
      2 ∉ alKeys (LRUCache.popitem (LRUCache.getitem
          (LRUCache.setAll (LRUCache.fresh 6) (List.range' 1 3) (fun j => j + 10)) 1).1).1.cache)) :=
  ⟨by decide, by decide, by decide, by decide, by decide, by decide,
    LRUCache.claim_C5 ⟨[(5, 9), (6, 8)], 2, 4, [(6, 8), (5, 9)], []⟩ 5 9 (by decide)
      9 (by decide) ⟨[(7, 1)], 1, 4, [(7, 1)], []⟩ (7, 1) [] rfl (by decide)
      6 3 (fun j => j + 10) (by decide) (by decide)⟩

/-! ## C6: LFU frequency-chain invariants -/

namespace LFULinkedList

theorem chainKeys_nil : chainKeys [] = [] := rfl

theorem chainKeys_cons (f : Nat) (items : List Nat) (rest : Chain) :
    chainKeys ((f, items) :: rest) = items ++ chainKeys rest := by
  simp [chainKeys]

theorem map_fst_delete (c : Chain) (k : Nat) :
    (delete c k).map Prod.fst = c.map Prod.fst := by
  induction c with
  | nil => rfl
  | cons b rest ih =>
    obtain ⟨f, items⟩ := b
    by_cases hk : k ∈ items
    · simp [delete, hk]
    · simp [delete, hk, ih]

theorem chainKeys_delete_sublist (c : Chain) (k : Nat) :
    List.Sublist (chainKeys (delete c k)) (chainKeys c) := by
  induction c with
  | nil => simp [delete, chainKeys]
  | cons b rest ih =>
    obtain ⟨f, items⟩ := b
    by_cases hk : k ∈ items
    · simp only [delete, if_pos hk, chainKeys_cons]
      exact (List.erase_sublist k items).append (List.Sublist.refl _)
    · simp only [delete, if_neg hk, chainKeys_cons]
      exact (List.Sublist.refl items).append ih

theorem popleft?_spec (c : Chain) :
    ∀ (k : Nat) (c' : Chain), popleft? c = some (k, c') →
      List.Sublist (chainKeys c') (chainKeys c) ∧
      c'.map Prod.fst = c.map Prod.fst := by
  induction c with
  | nil => intro k c' h; simp [popleft?] at h
  | cons b rest ih =>
    intro k c' h
    obtain ⟨f, items⟩ := b
    cases items with
    | nil =>
      simp only [popleft?] at h
      cases hr : popleft? rest with
      | none => rw [hr] at h; simp at h
      | some p =>
        obtain ⟨k0, rest'⟩ := p
        rw [hr] at h
        simp only [Option.some.injEq, Prod.mk.injEq] at h
        obtain ⟨rfl, rfl⟩ := h
        obtain ⟨hsub, hmap⟩ := ih _ rest' hr
        constructor
        · simpa [chainKeys_cons] using hsub
        · simpa using hmap
    | cons k0 items' =>
      simp only [popleft?, Option.some.injEq, Prod.mk.injEq] at h
      obtain ⟨rfl, rfl⟩ := h
      constructor
      · simp only [chainKeys_cons]
        exact (List.sublist_cons_self _ items').append (List.Sublist.refl _)
      · simp

theorem increment_perm (c : Chain) (k : Nat) (hk : k ∈ chainKeys c) :
    List.Perm (chainKeys (increment c k)) (chainKeys c) := by
  induction c with
  | nil => simp [chainKeys] at hk
  | cons b rest ih =>
    obtain ⟨f, items⟩ := b
    by_cases hki : k ∈ items
    · have hpe : List.Perm (k :: items.erase k) items := (List.perm_cons_erase hki).symm
      cases rest with
      | nil =>
        simp only [increment, if_pos hki, chainKeys_cons, chainKeys_nil]
        have h1 : List.Perm (items.erase k ++ [k]) items :=
          (List.perm_append_singleton k (items.erase k)).trans hpe
        simpa using h1
      | cons b2 rest' =>
        obtain ⟨g, jt⟩ := b2
        by_cases hg : g = f + 1
        · simp only [increment, if_pos hki, if_pos hg, chainKeys_cons]
          have heq : items.erase k ++ ((jt ++ [k]) ++ chainKeys rest') =
              (items.erase k ++ jt) ++ (k :: chainKeys rest') := by simp
          rw [heq]
          have hmid : List.Perm ((items.erase k ++ jt) ++ (k :: chainKeys rest'))
              (k :: (items.erase k ++ (jt ++ chainKeys rest'))) := by
            have hm := @List.perm_middle Nat k (items.erase k ++ jt) (chainKeys rest')
            simpa [List.append_assoc] using hm
          have hfin : List.Perm (k :: (items.erase k ++ (jt ++ chainKeys rest')))
              (items ++ (jt ++ chainKeys rest')) := by
            have := hpe.append_right (jt ++ chainKeys rest')
            simpa using this
          exact hmid.trans hfin
        · simp only [increment, if_pos hki, if_neg hg, chainKeys_cons]
          have heq : items.erase k ++ ([k] ++ ((jt ++ chainKeys rest'))) =
              items.erase k ++ (k :: (jt ++ chainKeys rest')) := by simp
          rw [heq]
          have hmid : List.Perm (items.erase k ++ (k :: (jt ++ chainKeys rest')))
              (k :: (items.erase k ++ (jt ++ chainKeys rest'))) :=
            @List.perm_middle Nat k (items.erase k) (jt ++ chainKeys rest')
          have hfin : List.Perm (k :: (items.erase k ++ (jt ++ chainKeys rest')))
              (items ++ (jt ++ chainKeys rest')) := by
            have := hpe.append_right (jt ++ chainKeys rest')
            simpa using this
          exact hmid.trans hfin
    · have hkr : k ∈ chainKeys rest := by
        rw [chainKeys_cons] at hk
        rcases List.mem_append.mp hk with h | h
        · exact absurd h hki
        · exact h
      simp only [increment, if_neg hki, chainKeys_cons]
      exact (ih hkr).append_left items

theorem increment_chain (c : Chain) (k : Nat) :
    ∀ prev, List.Chain (· < ·) prev (c.map Prod.fst) →
      List.Chain (· < ·) prev ((increment c k).map Prod.fst) := by
  induction c with
  | nil => intro prev h; exact h
  | cons b rest ih =>
    intro prev h
    obtain ⟨f, items⟩ := b
    simp only [List.map_cons, List.chain_cons] at h
    obtain ⟨hpf, hrest⟩ := h
    by_cases hki : k ∈ items
    · cases rest with
      | nil =>
        simp only [increment, if_pos hki, List.map_cons, List.map_nil, List.chain_cons]
        exact ⟨hpf, by omega, List.Chain.nil⟩
      | cons b2 rest' =>
        obtain ⟨g, jt⟩ := b2
        simp only [List.map_cons, List.chain_cons] at hrest
        obtain ⟨hfg, hrest'⟩ := hrest
        by_cases hg : g = f + 1
        · simp only [increment, if_pos hki, if_pos hg, List.map_cons, List.chain_cons]
          exact ⟨hpf, hfg, hrest'⟩
        · simp only [increment, if_pos hki, if_neg hg, List.map_cons, List.chain_cons]
          exact ⟨hpf, by omega, by omega, hrest'⟩
    · simp only [increment, if_neg hki, List.map_cons, List.chain_cons]
      exact ⟨hpf, ih f hrest⟩

theorem insert_inv (c : Chain) (k : Nat) (hk : k ∉ chainKeys c)
    (hnd : (chainKeys c).Nodup) (hch : List.Chain (· < ·) 0 (c.map Prod.fst)) :
    (chainKeys (insert c k)).Nodup ∧
      List.Chain (· < ·) 0 ((insert c k).map Prod.fst) := by
  cases c with
  | nil =>
    constructor
    · simp [insert, chainKeys]
    · simp [insert, List.chain_cons]
  | cons b rest =>
    obtain ⟨f, items⟩ := b
    rw [chainKeys_cons] at hk hnd
    constructor
    · simp only [insert, chainKeys_cons]
      have : items ++ [k] ++ chainKeys rest = items ++ (k :: chainKeys rest) := by simp
      rw [List.append_assoc, List.singleton_append]
      rw [List.nodup_middle]
      simp only [List.nodup_cons]
      exact ⟨hk, hnd⟩
    · simpa [insert] using hch

theorem countP_bucket_eq_one (c : Chain) (k : Nat) (hnd : (chainKeys c).Nodup)
    (hk : k ∈ chainKeys c) :
    c.countP (fun b => decide (k ∈ b.2)) = 1 := by
  induction c with
  | nil => simp [chainKeys] at hk
  | cons b rest ih =>
    obtain ⟨f, items⟩ := b
    rw [chainKeys_cons] at hnd hk
    rw [List.countP_cons]
    by_cases hki : k ∈ items
    · have hdisj : k ∉ chainKeys rest := by
        rcases List.nodup_append.mp hnd with ⟨_, _, hdis⟩
        exact fun hmem => hdis hki hmem
      have hzero : rest.countP (fun b => decide (k ∈ b.2)) = 0 := by
        rw [List.countP_eq_zero]
        intro b hb
        simp only [decide_eq_true_eq]
        intro hkb
        exact hdisj (by
          have : k ∈ (rest.map Prod.snd).flatten := by
            rw [List.mem_flatten]
            exact ⟨b.2, List.mem_map_of_mem Prod.snd hb, hkb⟩
          exact this)
      simp [hzero, hki]
    · have hkr : k ∈ chainKeys rest := by
        rcases List.mem_append.mp hk with h | h
        · exact absurd h hki
        · exact h
      have hnd' : (chainKeys rest).Nodup := (List.nodup_append.mp hnd).2.1
      simp [hki, ih hnd' hkr]

/-- C6 (amended: the source never unlinks an emptied bucket, so buckets
other than the sentinel head may be empty; the remaining invariants hold):
after any reachable sequence of chain operations, every live key lies in
exactly one bucket (the concatenation of all bucket key lists has no
duplicates, and for each live key exactly one bucket contains it), and the
bucket frequency values are unique and strictly increasing along the chain,
all strictly above the sentinel head's frequency 0. -/
theorem claim_C6 (c : Chain) (hreach : Reach c) :
    (chainKeys c).Nodup ∧
    (∀ k ∈ chainKeys c, c.countP (fun b => decide (k ∈ b.2)) = 1) ∧
    List.Chain (· < ·) 0 (c.map Prod.fst) := by
  have main : (chainKeys c).Nodup ∧ List.Chain (· < ·) 0 (c.map Prod.fst) := by
    induction hreach with
    | nil => exact ⟨List.nodup_nil, List.Chain.nil⟩
    | insert hc hk ih => exact insert_inv _ _ hk ih.1 ih.2
    | increment hc hk ih =>
      refine ⟨((increment_perm _ _ hk).nodup_iff).mpr ih.1, increment_chain _ _ 0 ih.2⟩
    | delete hc hk ih =>
      refine ⟨(chainKeys_delete_sublist _ _).nodup ih.1, ?_⟩
      have := map_fst_delete
      rw [map_fst_delete]
      exact ih.2
    | popleft hc hpop ih =>
      obtain ⟨hsub, hmap⟩ := popleft?_spec _ _ _ hpop
      exact ⟨hsub.nodup ih.1, by rw [hmap]; exact ih.2⟩
  exact ⟨main.1, fun k hk => countP_bucket_eq_one c k main.1 hk, main.2⟩

/-- Witness for `LFULinkedList.claim_C6` at the reachable chain
`[(1, []), (2, [1])]`. -/
theorem claim_C6_witness :
    LFULinkedList.Reach [(1, []), (2, [1])] ∧
    ((chainKeys [(1, []), (2, [1])]).Nodup ∧
      (∀ k ∈ chainKeys [(1, []), (2, [1])],
        ([(1, []), (2, [1])] : Chain).countP (fun b => decide (k ∈ b.2)) = 1) ∧
      List.Chain (· < ·) 0 (([(1, []), (2, [1])] : Chain).map Prod.fst)) := by
  have hreach : LFULinkedList.Reach [(1, []), (2, [1])] := by
    have h1 : LFULinkedList.Reach (LFULinkedList.insert [] 1) :=
      LFULinkedList.Reach.insert LFULinkedList.Reach.nil (by decide)
    have h2 : LFULinkedList.Reach
        (LFULinkedList.increment (LFULinkedList.insert [] 1) 1) :=
      LFULinkedList.Reach.increment h1 (by decide)
    simpa using h2
  exact ⟨hreach, LFULinkedList.claim_C6 _ hreach⟩

end LFULinkedList

